import Mathlib

/-!
# Binary indexed tree (`BITree<T>`) — model and verification

Shallow embedding of `src/bitree.h` / `src/bitree.cpp`.

* `std::vector<T>` is a `List T`; the value type `T` is any additive commutative
  group (exact arithmetic: integers, rationals, wrap-around machine integers).
* `size_t` is a natural number; arithmetic that can wrap is reduced `% 2 ^ 64`.
* An operation returns `none` when the C++ code has no defined result: an access
  outside a vector, or a loop that never exits.  Loops carry a fuel counter that
  is an upper bound on the number of iterations of every terminating run, so
  running out of fuel is the same as not terminating.
-/

/-- The class `BITree<T>`: data members `m_tree` and `m_arr` (bitree.h 63-64). -/
structure BITree (T : Type) where
  m_tree : List T
  m_arr : List T

/-- The nested class `BITree<T>::sum_iterator`: the tree it points into (held by value here)
and the position `m_idx` (bitree.h 153-154). -/
structure sum_iterator (T : Type) where
  m_bt : BITree T
  m_idx : Nat

section Model

variable {T : Type}

/-- The expression `index & (-index)` on `size_t` (bitree.cpp 52): unary minus of an unsigned
64-bit word is `2 ^ 64 - index` reduced modulo `2 ^ 64`. -/
def lowbit (index : Nat) : Nat := index &&& ((2 ^ 64 - index) % 2 ^ 64)

/-- Loop of `add_impl` (bitree.cpp 52-53), entered after `++ index`:
`for (...; index < m_tree.size(); index += index & (-index)) m_tree[index] += val;`.
The index is the only thing the loop condition reads, so a run that exits visits pairwise
different indices below `m_tree.size()`; the caller passes `m_tree.size() + 1` as fuel. -/
def add_impl_loop [Add T] : Nat → List T → Nat → T → Option (List T)
  | 0, _, _, _ => none
  | fuel + 1, m_tree, index, val =>
    if h : index < m_tree.length then
      add_impl_loop fuel (m_tree.set index (m_tree[index] + val))
        ((index + lowbit index) % 2 ^ 64) val
    else some m_tree

/-- Member `BITree<T>::add_impl(size_t index, T val)` (bitree.cpp 50-54). -/
def BITree.add_impl [Add T] (t : BITree T) (index : Nat) (val : T) : Option (BITree T) :=
  (add_impl_loop (t.m_tree.length + 1) t.m_tree ((index + 1) % 2 ^ 64) val).map
    fun tree => { t with m_tree := tree }

/-- Loop shared by both sequence constructors and `resize` (bitree.cpp 32-33, 41-42, 99-100):
`for (size_t i = 0; i < m_arr.size(); ++ i) add_impl(i, m_arr[i]);`. -/
def fold_in_loop [Add T] : Nat → BITree T → Nat → Option (BITree T)
  | 0, _, _ => none
  | fuel + 1, t, i =>
    if h : i < t.m_arr.length then
      (t.add_impl i t.m_arr[i]).bind fun t' => fold_in_loop fuel t' (i + 1)
    else some t

/-- Defaulted constructor `BITree() = default` (bitree.h 72): both vectors are empty. -/
def BITree.default : BITree T := { m_tree := [], m_arr := [] }

/-- Copy constructor `BITree(const BITree &)` (bitree.cpp 13-18). -/
def BITree.copy (nums : BITree T) : BITree T := { m_tree := nums.m_tree, m_arr := nums.m_arr }

/-- Move constructor `BITree(BITree &&)` (bitree.cpp 20-25): the new tree, and the source
afterwards, whose two vectors were moved from and are empty. -/
def BITree.move (nums : BITree T) : BITree T × BITree T :=
  ({ m_tree := nums.m_tree, m_arr := nums.m_arr }, { m_tree := [], m_arr := [] })

/-- Constructor `BITree(const std::vector<T> &nums)` (bitree.cpp 27-34): `m_tree` gets
`nums.size() + 1` value-initialised slots, `m_arr` is a copy of `nums`. -/
def BITree.ofVector [Add T] [Zero T] (nums : List T) : Option (BITree T) :=
  fold_in_loop (nums.length + 1)
    { m_tree := List.replicate (nums.length + 1) 0, m_arr := nums } 0

/-- Constructor `BITree(std::vector<T> &&nums)` (bitree.cpp 36-43): the new tree and the
moved-from argument. -/
def BITree.ofVectorMove [Add T] [Zero T] (nums : List T) : Option (BITree T × List T) :=
  (fold_in_loop (nums.length + 1)
    { m_tree := List.replicate (nums.length + 1) 0, m_arr := nums } 0).map fun t => (t, [])

/-- Member `get(size_t index)` (bitree.cpp 45-48): `m_arr[index]`. -/
def BITree.get (t : BITree T) (index : Nat) : Option T := t.m_arr[index]?

/-- Member `add(size_t index, T val)` (bitree.cpp 56-60). -/
def BITree.add [Add T] (t : BITree T) (index : Nat) (val : T) : Option (BITree T) :=
  if h : index < t.m_arr.length then
    BITree.add_impl { t with m_arr := t.m_arr.set index (t.m_arr[index] + val) } index val
  else none

/-- Member `update(size_t index, T val)` (bitree.cpp 62-65): `add(index, val - get(index))`. -/
def BITree.update [Add T] [Sub T] (t : BITree T) (index : Nat) (val : T) : Option (BITree T) :=
  (t.get index).bind fun cur => t.add index (val - cur)

/-- Loop of `sum(size_t index)` (bitree.cpp 70-71):
`for (; index > 0; index &= index - 1) ans += m_tree[index];`.
The index strictly decreases, so `index + 1` is enough fuel. -/
def sum_loop [Add T] : Nat → List T → Nat → T → Option T
  | 0, _, _, _ => none
  | fuel + 1, m_tree, index, ans =>
    if 0 < index then
      match m_tree[index]? with
      | none => none
      | some v => sum_loop fuel m_tree (index &&& (index - 1)) (ans + v)
    else some ans

/-- Member `sum(size_t index)` (bitree.cpp 67-73). -/
def BITree.sum [Add T] [Zero T] (t : BITree T) (index : Nat) : Option T :=
  sum_loop (index + 1) t.m_tree index 0

/-- Member `sum(size_t left, size_t right)` (bitree.cpp 75-78): `sum(right) - sum(left)`. -/
def BITree.sum2 [Add T] [Zero T] [Sub T] (t : BITree T) (left right : Nat) : Option T :=
  (t.sum right).bind fun r => (t.sum left).map fun l => r - l

/-- Member `get_arr()` (bitree.cpp 80-83). -/
def BITree.get_arr (t : BITree T) : List T := t.m_arr

/-- Member `size()` (bitree.cpp 85-88). -/
def BITree.size (t : BITree T) : Nat := t.m_arr.length

/-- Member `resize(size_t siz)` (bitree.cpp 90-101): `m_arr.resize(siz)` truncates or appends
value-initialised elements, `m_tree` is cleared and refilled with `siz + 1` zero slots. -/
def BITree.resize [Add T] [Zero T] (t : BITree T) (siz : Nat) : Option (BITree T) :=
  if siz = t.m_arr.length then some t
  else
    fold_in_loop (siz + 1)
      { m_tree := List.replicate (siz + 1) 0,
        m_arr := t.m_arr.take siz ++ List.replicate (siz - t.m_arr.length) 0 } 0

/-- Member `begin()` (bitree.cpp 103-106). -/
def BITree.begin (t : BITree T) : sum_iterator T := { m_bt := t, m_idx := 0 }

/-- Member `end()` (bitree.cpp 108-111); `end` is reserved in Lean, hence the underscore. -/
def BITree.end_ (t : BITree T) : sum_iterator T := { m_bt := t, m_idx := t.size }

/-- Loop of `print` (bitree.cpp 117-118): the iterator is the position `it`, `end_1` is
`m_arr.end() - 1` as a signed position. -/
def print_loop (render : T → String) (end_1 : Int) : List T → Nat → String
  | [], _ => ""
  | x :: rest, it =>
    render x ++ (if (it : Int) ≠ end_1 then "," else "") ++ print_loop render end_1 rest (it + 1)

/-- Member `print(std::ostream &)` (bitree.cpp 113-120): the text written to the stream,
`render` being `operator<<` of the value type. -/
def BITree.print (render : T → String) (t : BITree T) : String :=
  "[" ++ print_loop render ((t.m_arr.length : Int) - 1) t.m_arr 0 ++ "]"

/-- Operator `*` of the cursor (bitree.h 174): `m_bt->sum(m_idx)`. -/
def sum_iterator.deref [Add T] [Zero T] (it : sum_iterator T) : Option T := it.m_bt.sum it.m_idx

/-- Prefix `++` of the cursor (bitree.h 175). -/
def sum_iterator.incr (it : sum_iterator T) : sum_iterator T :=
  { it with m_idx := (it.m_idx + 1) % 2 ^ 64 }

/-- Operator `+=` of the cursor (bitree.h 177), `difference_type` being `size_t`. -/
def sum_iterator.add_assign (it : sum_iterator T) (n : Nat) : sum_iterator T :=
  { it with m_idx := (it.m_idx + n) % 2 ^ 64 }

/-- Binary `-` between two cursors (bitree.h 189): `m_idx - other.m_idx` in `size_t`. -/
def sum_iterator.diff (it other : sum_iterator T) : Nat :=
  (it.m_idx + 2 ^ 64 - other.m_idx) % 2 ^ 64

/-- Binary `+` of the cursor with an offset (bitree.h 178): `Self(m_bt, m_idx + n)`. -/
def sum_iterator.plus (it : sum_iterator T) (n : Nat) : sum_iterator T :=
  { m_bt := it.m_bt, m_idx := (it.m_idx + n) % 2 ^ 64 }

/-- Operator `==` of the cursor (bitree.h 183): `m_idx == other.m_idx`. -/
def sum_iterator.eq (it other : sum_iterator T) : Bool := decide (it.m_idx = other.m_idx)

/-- Operator `!=` of the cursor (bitree.h 184): `!(*this == other)`. -/
def sum_iterator.ne (it other : sum_iterator T) : Bool := !(it.eq other)

/-- Operator `<` of the cursor (bitree.h 185). -/
def sum_iterator.lt (it other : sum_iterator T) : Bool := decide (it.m_idx < other.m_idx)

/-- Operator `<=` of the cursor (bitree.h 186). -/
def sum_iterator.le (it other : sum_iterator T) : Bool := decide (it.m_idx ≤ other.m_idx)

/-- Operator `>` of the cursor (bitree.h 187). -/
def sum_iterator.gt (it other : sum_iterator T) : Bool := decide (it.m_idx > other.m_idx)

/-- Operator `>=` of the cursor (bitree.h 188). -/
def sum_iterator.ge (it other : sum_iterator T) : Bool := decide (it.m_idx ≥ other.m_idx)

/-- Range-based loop of the test (bitree_test.h 119-120), `for (auto prefix_sum : bt1)`, which
is `for (it = begin(); it != end(); ++ it)` reading `*it`: the values read, in order. Reaching
`last` takes `last - it` increments modulo `2 ^ 64`, so the caller passes that plus one as
fuel. -/
def range_for_loop [Add T] [Zero T] :
    Nat → sum_iterator T → sum_iterator T → List T → Option (List T)
  | 0, _, _, _ => none
  | fuel + 1, it, last, out =>
    if it.ne last then
      match it.deref with
      | none => none
      | some v => range_for_loop fuel it.incr last (out ++ [v])
    else some out

/-- The values read by `for (auto prefix_sum : bt)` (bitree_test.h 119-120). -/
def BITree.range_for [Add T] [Zero T] (bt : BITree T) : Option (List T) :=
  range_for_loop (bt.end_.diff bt.begin + 1) bt.begin bt.end_ []

/-- Loop of the test (bitree_test.h 112-113),
`for (auto it = bt1.begin(); it <= bt1.end(); ++ it)` reading `*it`: the values read, in
order. The index grows by one per round until it passes `size()`. -/
def walk_le_loop [Add T] [Zero T] :
    Nat → BITree T → sum_iterator T → List T → Option (List T)
  | 0, _, _, _ => none
  | fuel + 1, bt, it, out =>
    if it.le bt.end_ then
      match it.deref with
      | none => none
      | some v => walk_le_loop fuel bt it.incr (out ++ [v])
    else some out

/-- The values read by `for (auto it = bt.begin(); it <= bt.end(); ++ it)`
(bitree_test.h 112-113). -/
def BITree.walk_le [Add T] [Zero T] (bt : BITree T) : Option (List T) :=
  walk_le_loop (bt.size + 2) bt bt.begin []

/-- Positions at which the loop of `add_impl` (bitree.cpp 52-53) runs `m_tree[index] += val`,
in order: the control of `add_impl_loop` over a tree array of `size` slots, recording the
index instead of updating the slot. -/
def add_impl_positions : Nat → Nat → Nat → List Nat
  | 0, _, _ => []
  | fuel + 1, size, index =>
    if index < size then
      index :: add_impl_positions fuel size ((index + lowbit index) % 2 ^ 64)
    else []

/-- Lowest set bit of a `w`-bit word by recursion on the width: the arithmetic reading of
`lowbit`, used to reason about the two bit tricks. -/
def lsb : Nat → Nat → Nat
  | 0, _ => 0
  | w + 1, x => if x % 2 = 1 then 1 else 2 * lsb w (x / 2)

end Model

section Specification

variable {T : Type}

/-- Reference running sum computed independently of the tree: `V[0] + ... + V[i-1]`. -/
def naive_sum [AddCommGroup T] (V : List T) (i : Nat) : T := (V.take i).sum

/-- Node-level reading of a tree array against running sums `P` of `N` values: the array has
`N + 1` slots and slot `j` (for `1 ≤ j ≤ N`) holds the sum over `(j - lowbit j, j]`. -/
def NodeInv [AddCommGroup T] (tree : List T) (N : Nat) (P : Nat → T) : Prop :=
  tree.length = N + 1 ∧ ∀ j, 0 < j → j ≤ N → tree.getD j 0 = P j - P (j - lowbit j)

/-- State invariant of a tree: its size is one a `std::vector` can have, `m_tree` has one slot
more than `m_arr` (or both are empty, as after the defaulted constructor or a move), and every
`sum(i)` agrees with the naive running sum of `get_arr()`. -/
structure BITree.Inv [AddCommGroup T] (t : BITree T) : Prop where
  bound : t.size < 2 ^ 63
  shape : t.m_tree.length = t.m_arr.length + 1 ∨ (t.m_tree = [] ∧ t.m_arr = [])
  sums : ∀ i, i ≤ t.size → t.sum i = some (naive_sum t.get_arr i)

/-- States reachable from the constructors by `add`, `update` and `resize` with indices
inside the documented ranges; sizes stay below `2 ^ 63`, the most a vector can hold. -/
inductive BITree.Reachable [AddCommGroup T] : BITree T → Prop
  | by_default : BITree.Reachable BITree.default
  | of_vector (V : List T) (t : BITree T) :
      V.length < 2 ^ 63 → BITree.ofVector V = some t → BITree.Reachable t
  | of_vector_move (V : List T) (t : BITree T) (rest : List T) :
      V.length < 2 ^ 63 → BITree.ofVectorMove V = some (t, rest) → BITree.Reachable t
  | by_copy (t : BITree T) : BITree.Reachable t → BITree.Reachable t.copy
  | move_target (t : BITree T) : BITree.Reachable t → BITree.Reachable t.move.1
  | move_source (t : BITree T) : BITree.Reachable t → BITree.Reachable t.move.2
  | after_add (t t' : BITree T) (index : Nat) (val : T) :
      BITree.Reachable t → index < t.size → t.add index val = some t' → BITree.Reachable t'
  | after_update (t t' : BITree T) (index : Nat) (val : T) :
      BITree.Reachable t → index < t.size → t.update index val = some t' → BITree.Reachable t'
  | after_resize (t t' : BITree T) (siz : Nat) :
      BITree.Reachable t → siz < 2 ^ 63 → t.resize siz = some t' → BITree.Reachable t'

end Specification

section Search

variable {T : Type} [LinearOrderedAddCommGroup T]

/-- Modelled from the spec: the loop of the standard lower-bound binary search
(`std::lower_bound`, library code that is not among the repository's sources). With `len`
the remaining distance it takes `half = len >> 1`, advances a copy of `first` by `half`,
compares the dereferenced cursor with `val`, and continues right of it (`len - half - 1`
positions) when the value is less than `val`, else on the left `half` positions. Every round
shrinks `len`, so `len + 1` is enough fuel. All cursor steps are the operators of bitree.h. -/
def lower_bound_loop : Nat → sum_iterator T → Nat → T → Option (sum_iterator T)
  | 0, _, _, _ => none
  | fuel + 1, first, len, val =>
    if 0 < len then
      match (first.add_assign (len / 2)).deref with
      | none => none
      | some v =>
        if v < val then
          lower_bound_loop fuel (first.add_assign (len / 2)).incr (len - len / 2 - 1) val
        else lower_bound_loop fuel first (len / 2) val
    else some first

/-- Modelled from the spec: `std::lower_bound(first, last, val)` over cursors, the distance
being `last - first` in the cursor's `difference_type`. -/
def lower_bound (first last : sum_iterator T) (val : T) : Option (sum_iterator T) :=
  lower_bound_loop (last.diff first + 1) first (last.diff first) val

end Search

section Format

/-- Format stated by the spec for the printed form, `v0,v1,...,vN-1`: the rendered values in
index order with one comma between neighbours and none after the last. -/
def comma_separated : List String → String
  | [] => ""
  | [s] => s
  | s :: r :: rest => s ++ "," ++ comma_separated (r :: rest)

end Format

section Scenario

/-- The reference sequence `vec1` of the repository's test (bitree_test.h 15). -/
def vec1 : List ℚ := [2.71828, 3.14159, 1.14514, 1.19198, 0.57721]

/-- State of `bt1` after construction from `vec1` (bitree_test.h 17). -/
def bt1 : BITree ℚ :=
  { m_tree := [0, 2.71828, 5.85987, 1.14514, 8.19699, 0.57721], m_arr := vec1 }

/-- State of `bt1` after `bt1.add(2, 1)` (bitree_test.h 49). -/
def bt1_added : BITree ℚ :=
  { m_tree := [0, 2.71828, 5.85987, 2.14514, 9.19699, 0.57721],
    m_arr := [2.71828, 3.14159, 2.14514, 1.19198, 0.57721] }

/-- State of `bt1` after `bt1.resize(siz - 1)` (bitree_test.h 65). -/
def bt1_resized : BITree ℚ :=
  { m_tree := [0, 2.71828, 5.85987, 2.14514, 9.19699],
    m_arr := [2.71828, 3.14159, 2.14514, 1.19198] }

/-- State of `bt3`: move-constructed from `bt2`, the copy of the freshly built `bt1`
(bitree_test.h 24, 29). -/
def bt3 : BITree ℚ := (BITree.move (BITree.copy bt1)).1

/-- A tree of 32-bit unsigned integers, arithmetic modulo `2 ^ 32`. -/
def bt_u32 : BITree (ZMod (2 ^ 32)) :=
  { m_tree := [0, 4000000000, 4000000007, 9], m_arr := [4000000000, 7, 9] }

end Scenario

/-! ## Bit-level facts -/

section BitProofs

theorem land_double (a b : Nat) : (2 * a) &&& (2 * b) = 2 * (a &&& b) := by
  have h := Nat.land_bit false a false b
  simpa [Nat.bit_val] using h

theorem land_double_succ_left (a b : Nat) : (2 * a + 1) &&& (2 * b) = 2 * (a &&& b) := by
  have h := Nat.land_bit true a false b
  simpa [Nat.bit_val] using h

theorem land_double_succ_right (a b : Nat) : (2 * a) &&& (2 * b + 1) = 2 * (a &&& b) := by
  have h := Nat.land_bit false a true b
  simpa [Nat.bit_val] using h

theorem land_double_succ (a b : Nat) : (2 * a + 1) &&& (2 * b + 1) = 2 * (a &&& b) + 1 := by
  have h := Nat.land_bit true a true b
  simpa [Nat.bit_val] using h

theorem land_compl (w : Nat) : ∀ m, m < 2 ^ w → m &&& (2 ^ w - 1 - m) = 0 := by
  induction w with
  | zero => intro m hm; simp at hm; subst hm; simp
  | succ w ih =>
    intro m hm
    have hp : 2 ^ (w + 1) = 2 * 2 ^ w := by rw [pow_succ]; ring
    rcases Nat.mod_two_eq_zero_or_one m with h | h
    · have e1 : m = 2 * (m / 2) := by omega
      have e2 : 2 ^ (w + 1) - 1 - m = 2 * (2 ^ w - 1 - m / 2) + 1 := by omega
      rw [e2]; nth_rewrite 1 [e1]
      rw [land_double_succ_right, ih (m / 2) (by omega)]
    · have e1 : m = 2 * (m / 2) + 1 := by omega
      have e2 : 2 ^ (w + 1) - 1 - m = 2 * (2 ^ w - 1 - m / 2) := by omega
      rw [e2]; nth_rewrite 1 [e1]
      rw [land_double_succ_left, ih (m / 2) (by omega)]

theorem lsb_zero (w : Nat) : lsb w 0 = 0 := by
  induction w with
  | zero => rfl
  | succ w ih => simp [lsb, ih]

theorem land_neg_eq_lsb (w : Nat) : ∀ x, x < 2 ^ w → x &&& ((2 ^ w - x) % 2 ^ w) = lsb w x := by
  induction w with
  | zero => intro x hx; simp at hx; subst hx; simp [lsb]
  | succ w ih =>
    intro x hx
    have hp : 2 ^ (w + 1) = 2 * 2 ^ w := by rw [pow_succ]; ring
    rcases Nat.mod_two_eq_zero_or_one x with h | h
    · rcases Nat.eq_zero_or_pos x with h0 | h0
      · subst h0; simp [lsb, lsb_zero]
      · have e1 : x = 2 * (x / 2) := by omega
        have e2 : (2 ^ (w + 1) - x) % 2 ^ (w + 1) = 2 * ((2 ^ w - x / 2) % 2 ^ w) := by
          rw [Nat.mod_eq_of_lt (by omega), Nat.mod_eq_of_lt (by omega)]; omega
        rw [e2]; nth_rewrite 1 [e1]
        rw [land_double, ih (x / 2) (by omega)]
        simp [lsb, h]
    · have e1 : x = 2 * (x / 2) + 1 := by omega
      have e2 : (2 ^ (w + 1) - x) % 2 ^ (w + 1) = 2 * (2 ^ w - 1 - x / 2) + 1 := by
        rw [Nat.mod_eq_of_lt (by omega)]; omega
      rw [e2]; nth_rewrite 1 [e1]
      rw [land_double_succ, land_compl w (x / 2) (by omega)]
      simp [lsb, h]

theorem lowbit_eq_lsb (x : Nat) (hx : x < 2 ^ 64) : lowbit x = lsb 64 x :=
  land_neg_eq_lsb 64 x hx

theorem lsb_pos (w : Nat) : ∀ x, 0 < x → x < 2 ^ w → 0 < lsb w x ∧ lsb w x ≤ x := by
  induction w with
  | zero => intro x h0 hx; simp at hx; omega
  | succ w ih =>
    intro x h0 hx
    have hp : 2 ^ (w + 1) = 2 * 2 ^ w := by rw [pow_succ]; ring
    rcases Nat.mod_two_eq_zero_or_one x with h | h
    · have := ih (x / 2) (by omega) (by omega)
      simp only [lsb, h]; simp; omega
    · simp only [lsb, h]; simp; omega

theorem land_pred_eq (w : Nat) : ∀ x, 0 < x → x < 2 ^ w → x &&& (x - 1) = x - lsb w x := by
  induction w with
  | zero => intro x h0 hx; simp at hx; omega
  | succ w ih =>
    intro x h0 hx
    have hp : 2 ^ (w + 1) = 2 * 2 ^ w := by rw [pow_succ]; ring
    rcases Nat.mod_two_eq_zero_or_one x with h | h
    · have e1 : x = 2 * (x / 2) := by omega
      have e2 : x - 1 = 2 * (x / 2 - 1) + 1 := by omega
      have hl := lsb_pos w (x / 2) (by omega) (by omega)
      rw [e2]; nth_rewrite 1 [e1]
      rw [land_double_succ_right, ih (x / 2) (by omega) (by omega)]
      simp only [lsb, h]; simp; omega
    · have e1 : x = 2 * (x / 2) + 1 := by omega
      have e2 : x - 1 = 2 * (x / 2) := by omega
      rw [e2]; nth_rewrite 1 [e1]
      rw [land_double_succ_left, Nat.and_self]
      simp only [lsb, h]; simp; omega

/-- Chain step: the node interval `(j - lsb j, j]` holds `p` iff it holds the
next chain position `p + lsb p`, which then does not pass `j`. -/
theorem cover_step (w : Nat) : ∀ p j, 0 < p → p < j → j < 2 ^ w →
    (j - lsb w j < p ↔ (p + lsb w p ≤ j ∧ j - lsb w j < p + lsb w p)) := by
  induction w with
  | zero => intro p j h0 hpj hj; simp at hj; omega
  | succ w ih =>
    intro p j h0 hpj hj
    have hp : 2 ^ (w + 1) = 2 * 2 ^ w := by rw [pow_succ]; ring
    rcases Nat.mod_two_eq_zero_or_one p with h | h <;>
      rcases Nat.mod_two_eq_zero_or_one j with h' | h'
    · have := ih (p / 2) (j / 2) (by omega) (by omega) (by omega)
      simp only [lsb, h, h']; simp; omega
    · simp only [lsb, h, h']; simp; omega
    · simp only [lsb, h, h']; simp; omega
    · simp only [lsb, h, h']; simp; omega

end BitProofs

/-! ## The update chain -/

section Proofs

variable {T : Type} [AddCommGroup T]

theorem lowbit_facts (p : Nat) (h0 : 0 < p) (hp : p < 2 ^ 63) :
    lowbit p = lsb 64 p ∧ 0 < lsb 64 p ∧ lsb 64 p ≤ p ∧
      (p + lowbit p) % 2 ^ 64 = p + lsb 64 p := by
  have h64 : p < 2 ^ 64 := by omega
  have e := lowbit_eq_lsb p h64
  have hl := lsb_pos 64 p h0 h64
  refine ⟨e, hl.1, hl.2, ?_⟩
  rw [e, Nat.mod_eq_of_lt]; omega

/-- Effect of the `add_impl` loop started at position `p`: slot `j` receives `val` exactly
when `p ≤ j` and `p` lies in the interval `(j - lsb j, j]`. -/
theorem add_impl_loop_spec (val : T) : ∀ (fuel : Nat) (tree : List T) (p : Nat),
    0 < p → tree.length ≤ 2 ^ 63 → tree.length - p < fuel →
    ∃ tree', add_impl_loop fuel tree p val = some tree' ∧ tree'.length = tree.length ∧
      ∀ j, j < tree.length →
        tree'.getD j 0 = tree.getD j 0 + (if p ≤ j ∧ j - lsb 64 j < p then val else 0) := by
  intro fuel
  induction fuel with
  | zero =>
    intro tree p h0 hlen hf
    omega
  | succ fuel ih =>
    intro tree p h0 hlen hf
    by_cases hp : p < tree.length
    · obtain ⟨e, hpos, hle, hstep⟩ := lowbit_facts p h0 (by omega)
      obtain ⟨tree', h1, h2, h3⟩ := ih (tree.set p (tree[p] + val)) (p + lsb 64 p)
        (by omega) (by simpa using hlen) (by simp only [List.length_set]; omega)
      refine ⟨tree', ?_, by simpa using h2, ?_⟩
      · rw [add_impl_loop, dif_pos hp, hstep]; exact h1
      · intro j hj
        rw [h3 j (by simpa using hj)]
        by_cases hjp : j = p
        · subst hjp
          have c1 : ¬ (j + lsb 64 j ≤ j ∧ j - lsb 64 j < j + lsb 64 j) := by omega
          have c2 : (j ≤ j ∧ j - lsb 64 j < j) := by omega
          rw [if_neg c1, if_pos c2]
          simp [List.getD_eq_getElem?_getD, List.getElem?_set, hj]
        · have e1 : (tree.set p (tree[p] + val)).getD j 0 = tree.getD j 0 := by
            simp [List.getD_eq_getElem?_getD, List.getElem?_set, Ne.symm hjp]
          rw [e1]
          congr 1
          by_cases hlt : j < p
          · have c1 : ¬ (p + lsb 64 p ≤ j ∧ j - lsb 64 j < p + lsb 64 p) := by omega
            have c2 : ¬ (p ≤ j ∧ j - lsb 64 j < p) := by omega
            rw [if_neg c1, if_neg c2]
          · have hc := cover_step 64 p j h0 (by omega) (by omega)
            by_cases c : j - lsb 64 j < p
            · rw [if_pos (hc.1 c), if_pos ⟨by omega, c⟩]
            · rw [if_neg (fun h' => c (hc.2 h')), if_neg (fun h' => c h'.2)]
    · refine ⟨tree, ?_, rfl, ?_⟩
      · rw [add_impl_loop, dif_neg hp]
      · intro j hj
        have c2 : ¬ (p ≤ j ∧ j - lsb 64 j < p) := by omega
        rw [if_neg c2, add_zero]

end Proofs

/-! ## Node invariant: queries and updates -/

section NodeProofs

variable {T : Type} [AddCommGroup T]

theorem naive_sum_zero (V : List T) : naive_sum V 0 = 0 := by
  simp [naive_sum]

theorem naive_sum_succ (V : List T) (i : Nat) (h : i < V.length) :
    naive_sum V (i + 1) = naive_sum V i + V[i] := by
  simp [naive_sum, List.sum_take_succ V i h]

theorem naive_sum_of_length_le (V : List T) (i : Nat) (h : V.length ≤ i) :
    naive_sum V i = naive_sum V V.length := by
  simp [naive_sum, List.take_of_length_le h]

/-- Query loop under the node invariant: the accumulator gains the running sum. -/
theorem sum_loop_spec (tree : List T) (N : Nat) (P : Nat → T) (hN : N < 2 ^ 63)
    (hP : P 0 = 0) (inv : NodeInv tree N P) :
    ∀ (fuel i : Nat) (ans : T), i < fuel → i ≤ N →
      sum_loop fuel tree i ans = some (ans + P i) := by
  intro fuel
  induction fuel with
  | zero => intro i ans h; omega
  | succ fuel ih =>
    intro i ans hf hi
    rcases Nat.eq_zero_or_pos i with h0 | h0
    · subst h0; simp [sum_loop, hP]
    · have hlt : i < tree.length := by rw [inv.1]; omega
      have h64 : i < 2 ^ 64 := by omega
      have hl := lsb_pos 64 i h0 h64
      have hv := inv.2 i h0 hi
      rw [lowbit_eq_lsb i h64] at hv
      rw [sum_loop, if_pos h0, List.getElem?_eq_getElem hlt]
      simp only
      rw [land_pred_eq 64 i h0 h64, ih (i - lsb 64 i) _ (by omega) (by omega)]
      have e : tree[i] = tree.getD i 0 := by
        simp [List.getD_eq_getElem?_getD, List.getElem?_eq_getElem hlt]
      rw [e, hv]; congr 1; abel

/-- One `add_impl` call keeps the node invariant, for the running sums in which position
`index` has grown by `val`. -/
theorem add_impl_loop_node (tree : List T) (N : Nat) (P : Nat → T) (hN : N < 2 ^ 63)
    (inv : NodeInv tree N P) (index : Nat) (val : T) (hi : index < N) :
    ∃ tree', add_impl_loop (tree.length + 1) tree ((index + 1) % 2 ^ 64) val = some tree' ∧
      NodeInv tree' N (fun k => P k + if index < k then val else 0) := by
  have hm : (index + 1) % 2 ^ 64 = index + 1 := Nat.mod_eq_of_lt (by omega)
  obtain ⟨tree', h1, h2, h3⟩ := add_impl_loop_spec val (tree.length + 1) tree (index + 1)
    (by omega) (by rw [inv.1]; omega) (by omega)
  refine ⟨tree', by rw [hm]; exact h1, by rw [h2]; exact inv.1, ?_⟩
  intro j h0 hj
  have h64 : j < 2 ^ 64 := by omega
  have hl := lsb_pos 64 j h0 h64
  rw [h3 j (by rw [inv.1]; omega), inv.2 j h0 hj, lowbit_eq_lsb j h64]
  beta_reduce
  by_cases c1 : index < j <;> by_cases c2 : index < j - lsb 64 j
  · rw [if_neg (by omega), if_pos c1, if_pos c2]; abel
  · rw [if_pos (by omega), if_pos c1, if_neg c2]; abel
  · omega
  · rw [if_neg (by omega), if_neg c1, if_neg c2]; abel

end NodeProofs

/-! ## Construction, rebuild and the state invariant -/

section StateProofs

variable {T : Type} [AddCommGroup T]

theorem NodeInv.congr {tree : List T} {N : Nat} {P Q : Nat → T} (inv : NodeInv tree N P)
    (h : ∀ k, k ≤ N → P k = Q k) : NodeInv tree N Q := by
  refine ⟨inv.1, ?_⟩
  intro j h0 hj
  rw [inv.2 j h0 hj, h j hj, h (j - lowbit j) (by omega)]

theorem naive_sum_set (d : T) : ∀ (arr : List T) (i k : Nat), i < arr.length →
    naive_sum (arr.set i (arr.getD i 0 + d)) k = naive_sum arr k + if i < k then d else 0 := by
  intro arr
  induction arr with
  | nil => intro i k h; simp at h
  | cons x xs ih =>
    intro i k h
    cases k with
    | zero => simp [naive_sum]
    | succ k =>
      cases i with
      | zero => simp [naive_sum]; abel
      | succ i =>
        have h' : i < xs.length := by simpa using h
        have := ih i k h'
        simp only [naive_sum] at this
        simp only [naive_sum, List.set_cons_succ, List.take_succ_cons, List.sum_cons,
          List.getD_cons_succ, this, Nat.succ_lt_succ_iff]
        abel

/-- The fold-in loop `for (i = 0; i < m_arr.size(); ++ i) add_impl(i, m_arr[i])`, entered at
position `i` with a tree array that encodes the first `i` values, ends with a tree array that
encodes all of them and leaves `m_arr` as it was. -/
theorem fold_in_loop_spec (arr : List T) (hN : arr.length < 2 ^ 63) :
    ∀ (fuel : Nat) (tree : List T) (i : Nat), arr.length - i < fuel → i ≤ arr.length →
      NodeInv tree arr.length (fun k => naive_sum arr (min k i)) →
      ∃ tree', fold_in_loop fuel { m_tree := tree, m_arr := arr } i
          = some { m_tree := tree', m_arr := arr } ∧
        NodeInv tree' arr.length (naive_sum arr) := by
  intro fuel
  induction fuel with
  | zero => intro tree i h; omega
  | succ fuel ih =>
    intro tree i hf hi inv
    by_cases hlt : i < arr.length
    · obtain ⟨tree1, h1, inv1⟩ := add_impl_loop_node tree arr.length _ hN inv i arr[i] hlt
      have inv2 : NodeInv tree1 arr.length (fun k => naive_sum arr (min k (i + 1))) := by
        refine inv1.congr ?_
        intro k hk
        beta_reduce
        by_cases c : i < k
        · rw [if_pos c, Nat.min_eq_right (by omega), Nat.min_eq_right (by omega),
            naive_sum_succ arr i hlt]
        · rw [if_neg c, Nat.min_eq_left (by omega), Nat.min_eq_left (by omega), add_zero]
      obtain ⟨tree', h2, inv'⟩ := ih tree1 (i + 1) (by omega) (by omega) inv2
      refine ⟨tree', ?_, inv'⟩
      rw [fold_in_loop, dif_pos (by simpa using hlt)]
      simp only [BITree.add_impl, h1, Option.map_some', Option.some_bind]
      exact h2
    · refine ⟨tree, ?_, ?_⟩
      · rw [fold_in_loop, dif_neg (by simpa using hlt)]
      · refine inv.congr ?_
        intro k hk
        beta_reduce
        rw [Nat.min_eq_left (by omega)]

/-- Rebuilding from an all-zero tree array of `arr.size() + 1` slots always produces a result,
which encodes `arr`. -/
theorem rebuild_spec (arr : List T) (hN : arr.length < 2 ^ 63) :
    ∃ tree', fold_in_loop (arr.length + 1)
        { m_tree := List.replicate (arr.length + 1) 0, m_arr := arr } 0
          = some { m_tree := tree', m_arr := arr } ∧
      NodeInv tree' arr.length (naive_sum arr) := by
  refine fold_in_loop_spec arr hN _ _ 0 (by omega) (by omega) ⟨by simp, ?_⟩
  intro j h0 hj
  have hj' : j < arr.length + 1 := by omega
  simp [List.getD_eq_getElem?_getD, List.getElem?_replicate, naive_sum, hj']

theorem sum_loop_acc (tree : List T) : ∀ (i fuel : Nat) (a : T), i < fuel →
    sum_loop fuel tree i a = (sum_loop (i + 1) tree i 0).map (fun s => a + s) := by
  intro i
  induction i using Nat.strong_induction_on with
  | _ i ih =>
    intro fuel a hf
    obtain ⟨f, rfl⟩ : ∃ f, fuel = f + 1 := ⟨fuel - 1, by omega⟩
    rcases Nat.eq_zero_or_pos i with h0 | h0
    · subst h0; simp [sum_loop]
    · have hlt : i &&& (i - 1) < i := by
        have hw := Nat.lt_two_pow i
        have hl := lsb_pos i i h0 hw
        rw [land_pred_eq i i h0 hw]; omega
      have e1 : ∀ (g : Nat) (b : T), sum_loop (g + 1) tree i b =
          match tree[i]? with
          | none => none
          | some v => sum_loop g tree (i &&& (i - 1)) (b + v) := by
        intro g b; rw [sum_loop, if_pos h0]
      rw [e1 f a, e1 i 0]
      cases hv : tree[i]? with
      | none => rfl
      | some v =>
        simp only
        rw [ih _ hlt f (a + v) (by omega), ih _ hlt i (0 + v) hlt]
        generalize sum_loop ((i &&& (i - 1)) + 1) tree (i &&& (i - 1)) 0 = r
        cases r with
        | none => rfl
        | some s => simp only [Option.map_some', zero_add, add_assoc]

/-- A tree array encoding `m_arr` gives the state invariant. -/
theorem BITree.Inv.of_node (t : BITree T) (hN : t.m_arr.length < 2 ^ 63)
    (inv : NodeInv t.m_tree t.m_arr.length (naive_sum t.m_arr)) : t.Inv := by
  refine ⟨hN, Or.inl inv.1, ?_⟩
  intro i hi
  have := sum_loop_spec t.m_tree _ _ hN (naive_sum_zero _) inv (i + 1) i 0 (by omega) hi
  simpa [BITree.sum, BITree.get_arr] using this

/-- The state invariant of a tree whose `m_tree` has `size() + 1` slots gives back the
node-level encoding. -/
theorem BITree.Inv.to_node (t : BITree T) (inv : t.Inv)
    (hs : t.m_tree.length = t.m_arr.length + 1) :
    NodeInv t.m_tree t.m_arr.length (naive_sum t.m_arr) := by
  refine ⟨hs, ?_⟩
  intro j h0 hj
  have hN := inv.bound
  simp only [BITree.size] at hN
  have h64 : j < 2 ^ 64 := by omega
  have hl := lsb_pos 64 j h0 h64
  have hlt : j < t.m_tree.length := by omega
  have s1 := inv.sums j hj
  have s2 := inv.sums (j - lsb 64 j) (by simp only [BITree.size]; omega)
  simp only [BITree.sum, BITree.get_arr] at s1 s2
  rw [sum_loop, if_pos h0, List.getElem?_eq_getElem hlt] at s1
  simp only at s1
  rw [land_pred_eq 64 j h0 h64, sum_loop_acc _ _ _ _ (by omega), s2] at s1
  simp only [Option.map_some', Option.some.injEq, zero_add] at s1
  rw [lowbit_eq_lsb j h64, ← s1]
  simp [List.getD_eq_getElem?_getD, List.getElem?_eq_getElem hlt]

end StateProofs

/-! ## Operations keep the state invariant -/

section OperationProofs

variable {T : Type} [AddCommGroup T]

theorem BITree.Inv.default_inv : (BITree.default : BITree T).Inv := by
  refine ⟨by simp [BITree.size, BITree.default], Or.inr ⟨rfl, rfl⟩, ?_⟩
  intro i hi
  have h0 : i = 0 := by simpa [BITree.size, BITree.default] using hi
  subst h0
  simp [BITree.sum, sum_loop, naive_sum]

theorem ofVector_spec (V : List T) (hV : V.length < 2 ^ 63) :
    ∃ t, BITree.ofVector V = some t ∧ BITree.ofVectorMove V = some (t, []) ∧
      t.m_arr = V ∧ t.m_tree.length = V.length + 1 ∧ t.Inv := by
  obtain ⟨tree', h1, inv⟩ := rebuild_spec V hV
  refine ⟨{ m_tree := tree', m_arr := V }, h1, ?_, rfl, inv.1, BITree.Inv.of_node _ hV inv⟩
  simp [BITree.ofVectorMove, h1]

theorem add_spec (t : BITree T) (inv : t.Inv) (index : Nat) (val : T) (hi : index < t.size) :
    ∃ t', t.add index val = some t' ∧
      t'.m_arr = t.m_arr.set index (t.m_arr.getD index 0 + val) ∧
      t'.m_tree.length = t'.m_arr.length + 1 ∧ t'.Inv := by
  have hN := inv.bound
  simp only [BITree.size] at hN hi
  have hs : t.m_tree.length = t.m_arr.length + 1 := by
    rcases inv.shape with h | ⟨-, h⟩
    · exact h
    · rw [h] at hi; simp at hi
  have node := BITree.Inv.to_node t inv hs
  obtain ⟨tree', h1, inv1⟩ := add_impl_loop_node t.m_tree _ _ hN node index val hi
  have e : t.m_arr[index] = t.m_arr.getD index 0 := by
    simp [List.getD_eq_getElem?_getD, List.getElem?_eq_getElem hi]
  have inv2 : NodeInv tree' (t.m_arr.set index (t.m_arr.getD index 0 + val)).length
      (naive_sum (t.m_arr.set index (t.m_arr.getD index 0 + val))) := by
    rw [List.length_set]
    refine inv1.congr ?_
    intro k _
    rw [naive_sum_set val t.m_arr index k hi]
  refine ⟨{ m_tree := tree', m_arr := t.m_arr.set index (t.m_arr.getD index 0 + val) },
    ?_, rfl, ?_, BITree.Inv.of_node _ (by simpa using hN) inv2⟩
  · rw [BITree.add, dif_pos hi]
    simp only [BITree.add_impl, h1, Option.map_some', e]
  · simpa using inv1.1

theorem update_spec (t : BITree T) (inv : t.Inv) (index : Nat) (val : T) (hi : index < t.size) :
    ∃ t', t.update index val = some t' ∧ t'.m_arr = t.m_arr.set index val ∧
      t'.m_tree.length = t'.m_arr.length + 1 ∧ t'.Inv := by
  have hi' : index < t.m_arr.length := hi
  obtain ⟨t', h1, h2, h3, h4⟩ := add_spec t inv index (val - t.m_arr.getD index 0) hi
  refine ⟨t', ?_, by simpa using h2, h3, h4⟩
  have e : t.m_arr[index]? = some (t.m_arr.getD index 0) := by
    simp [List.getD_eq_getElem?_getD, List.getElem?_eq_getElem hi']
  simp only [BITree.update, BITree.get, e, Option.some_bind, h1]

theorem resize_spec (t : BITree T) (siz : Nat) (hsiz : siz < 2 ^ 63) (hne : siz ≠ t.size) :
    ∃ t', t.resize siz = some t' ∧
      t'.m_arr = t.m_arr.take siz ++ List.replicate (siz - t.m_arr.length) 0 ∧
      t'.m_tree.length = siz + 1 ∧ t'.Inv := by
  have hlen : (t.m_arr.take siz ++ List.replicate (siz - t.m_arr.length) (0 : T)).length = siz := by
    simp only [List.length_append, List.length_take, List.length_replicate]; omega
  obtain ⟨tree', h1, inv⟩ :=
    rebuild_spec (t.m_arr.take siz ++ List.replicate (siz - t.m_arr.length) (0 : T))
      (by rw [hlen]; exact hsiz)
  rw [hlen] at h1
  refine ⟨{ m_tree := tree',
            m_arr := t.m_arr.take siz ++ List.replicate (siz - t.m_arr.length) 0 },
    ?_, rfl, by rw [inv.1, hlen], BITree.Inv.of_node _ (by rw [hlen]; exact hsiz) inv⟩
  have hne' : ¬ siz = t.m_arr.length := hne
  rw [BITree.resize, if_neg hne']
  exact h1

theorem resize_same (t : BITree T) : t.resize t.size = some t := by
  simp [BITree.resize, BITree.size]

/-- Every reachable state satisfies the state invariant. -/
theorem BITree.Reachable.inv {t : BITree T} (h : t.Reachable) : t.Inv := by
  induction h with
  | by_default => exact BITree.Inv.default_inv
  | of_vector V t hV ht =>
    obtain ⟨t0, h1, -, -, -, h2⟩ := ofVector_spec V hV
    rw [ht] at h1; cases h1; exact h2
  | of_vector_move V t rest hV ht =>
    obtain ⟨t0, -, h1, -, -, h2⟩ := ofVector_spec V hV
    rw [ht] at h1; cases h1; exact h2
  | by_copy t _ ih => exact ih
  | move_target t _ ih => exact ih
  | move_source t _ _ => exact BITree.Inv.default_inv
  | after_add t t' index val _ hi ht ih =>
    obtain ⟨t0, h1, -, -, h2⟩ := add_spec t ih index val hi
    rw [ht] at h1; cases h1; exact h2
  | after_update t t' index val _ hi ht ih =>
    obtain ⟨t0, h1, -, -, h2⟩ := update_spec t ih index val hi
    rw [ht] at h1; cases h1; exact h2
  | after_resize t t' siz _ hsiz ht ih =>
    by_cases hne : siz = t.size
    · subst hne
      rw [resize_same] at ht; cases ht; exact ih
    · obtain ⟨t0, h1, -, -, h2⟩ := resize_spec t siz hsiz hne
      rw [ht] at h1; cases h1; exact h2

end OperationProofs

/-! ## Running sums of slices, truncations and extensions -/

section ListProofs

variable {T : Type} [AddCommGroup T]

theorem naive_sum_sub (V : List T) (l r : Nat) (h : l ≤ r) :
    naive_sum V r - naive_sum V l = ((V.drop l).take (r - l)).sum := by
  have e : r = l + (r - l) := by omega
  simp only [naive_sum]
  nth_rewrite 1 [e]
  rw [List.take_add, List.sum_append]
  abel

theorem naive_sum_take (V : List T) (k i : Nat) (h : i ≤ k) :
    naive_sum (V.take k) i = naive_sum V i := by
  simp [naive_sum, List.take_take, Nat.min_eq_left h]

theorem naive_sum_append_zeros (V : List T) (n i : Nat) :
    naive_sum (V ++ List.replicate n 0) i = naive_sum V i := by
  simp only [naive_sum, List.take_append_eq_append_take, List.take_replicate, List.sum_append,
    List.sum_replicate, smul_zero, add_zero]

theorem getElem?_eq_some_getD (V : List T) (i : Nat) (h : i < V.length) :
    V[i]? = some (V.getD i 0) := by
  simp [List.getD_eq_getElem?_getD, List.getElem?_eq_getElem h]

end ListProofs

/-! ## Binary search over the cursor range -/

section SearchProofs

variable {T : Type} [LinearOrderedAddCommGroup T]

theorem naive_sum_mono (V : List T) (hnn : ∀ v, v ∈ V → 0 ≤ v) (i j : Nat) (h : i ≤ j) :
    naive_sum V i ≤ naive_sum V j := by
  have e := naive_sum_sub V i j h
  have hs : 0 ≤ ((V.drop i).take (j - i)).sum := by
    apply List.sum_nonneg
    intro x hx
    exact hnn x (List.mem_of_mem_drop (List.mem_of_mem_take hx))
  rw [← e] at hs
  exact sub_nonneg.mp hs

/-- The search loop keeps: everything left of `f` is below `x`, everything from `f + len` on
(inside the range) is at least `x`; it returns the boundary. -/
theorem lower_bound_loop_spec (t : BITree T) (inv : t.Inv) (hnn : ∀ v, v ∈ t.get_arr → 0 ≤ v)
    (x : T) : ∀ (fuel f len : Nat), len < fuel → f + len ≤ t.size →
      (∀ i, i < f → naive_sum t.get_arr i < x) →
      (∀ i, f + len ≤ i → i < t.size → x ≤ naive_sum t.get_arr i) →
      ∃ r, lower_bound_loop fuel { m_bt := t, m_idx := f } len x = some { m_bt := t, m_idx := r } ∧
        r ≤ t.size ∧ (∀ i, i < r → naive_sum t.get_arr i < x) ∧
        (r < t.size → x ≤ naive_sum t.get_arr r) := by
  have hN := inv.bound
  intro fuel
  induction fuel with
  | zero => intro f len h; omega
  | succ fuel ih =>
    intro f len hf hle hlo hhi
    by_cases h0 : 0 < len
    · have hmid : (f + len / 2) % 2 ^ 64 = f + len / 2 := Nat.mod_eq_of_lt (by omega)
      have hnext : (f + len / 2 + 1) % 2 ^ 64 = f + len / 2 + 1 := Nat.mod_eq_of_lt (by omega)
      have hd : ({ m_bt := t, m_idx := f } : sum_iterator T).add_assign (len / 2)
          = { m_bt := t, m_idx := f + len / 2 } := by
        simp only [sum_iterator.add_assign, hmid]
      have hv : ({ m_bt := t, m_idx := f + len / 2 } : sum_iterator T).deref
          = some (naive_sum t.get_arr (f + len / 2)) := by
        simp only [sum_iterator.deref]
        exact inv.sums _ (by omega)
      rw [lower_bound_loop, if_pos h0, hd, hv]
      simp only
      by_cases hc : naive_sum t.get_arr (f + len / 2) < x
      · rw [if_pos hc]
        have hi : ({ m_bt := t, m_idx := f + len / 2 } : sum_iterator T).incr
            = { m_bt := t, m_idx := f + len / 2 + 1 } := by
          simp only [sum_iterator.incr, hnext]
        rw [hi]
        refine ih (f + len / 2 + 1) (len - len / 2 - 1) (by omega) (by omega) ?_ ?_
        · intro i hi'
          exact lt_of_le_of_lt (naive_sum_mono _ hnn i _ (by omega)) hc
        · intro i hi' hlt
          exact hhi i (by omega) hlt
      · rw [if_neg hc]
        refine ih f (len / 2) (by omega) (by omega) hlo ?_
        intro i hi' hlt
        exact le_trans (not_lt.mp hc) (naive_sum_mono _ hnn _ i hi')
    · have hl : len = 0 := by omega
      subst hl
      refine ⟨f, ?_, by omega, hlo, ?_⟩
      · rw [lower_bound_loop, if_neg h0]
      · intro hlt
        exact hhi f (by omega) hlt

end SearchProofs

/-! ## Scenario states -/

section ScenarioProofs

theorem lowbit_small : lowbit 1 = 1 ∧ lowbit 2 = 2 ∧ lowbit 3 = 1 ∧ lowbit 4 = 4 ∧
    lowbit 5 = 1 ∧ lowbit 6 = 2 ∧ lowbit 7 = 1 ∧ lowbit 8 = 8 := by decide

theorem bt1_constructed : BITree.ofVector vec1 = some bt1 := by
  obtain ⟨l1, l2, l3, l4, l5, l6, l7, l8⟩ := lowbit_small
  simp [BITree.ofVector, vec1, bt1, fold_in_loop, BITree.add_impl, add_impl_loop,
    l1, l2, l3, l4, l5, l6]
  norm_num

theorem bt1_add : bt1.add 2 1 = some bt1_added := by
  obtain ⟨l1, l2, l3, l4, l5, l6, l7, l8⟩ := lowbit_small
  simp [BITree.add, vec1, bt1, bt1_added, BITree.add_impl, add_impl_loop,
    l1, l2, l3, l4, l5, l6]
  norm_num

theorem bt1_resize : bt1_added.resize 4 = some bt1_resized := by
  obtain ⟨l1, l2, l3, l4, l5, l6, l7, l8⟩ := lowbit_small
  simp [BITree.resize, bt1_added, bt1_resized, fold_in_loop, BITree.add_impl, add_impl_loop,
    l1, l2, l3, l4, l5, l6]
  norm_num

theorem bt1_reachable : bt1.Reachable :=
  BITree.Reachable.of_vector vec1 bt1 (by decide) bt1_constructed

theorem bt1_added_reachable : bt1_added.Reachable :=
  BITree.Reachable.after_add bt1 bt1_added 2 1 bt1_reachable (by decide) bt1_add

theorem bt1_resized_reachable : bt1_resized.Reachable :=
  BITree.Reachable.after_resize bt1_added bt1_resized 4 bt1_added_reachable (by decide) bt1_resize

end ScenarioProofs

/-! ## Claims -/

section Claims

variable {T : Type} [AddCommGroup T]

/-- C1: for a sequence `V` of `N` values (a vector holds fewer than `2 ^ 63`), both sequence
constructors return the same tree, and `sum(i)` of that tree is the naive running sum
`V[0] + ... + V[i-1]` for every `0 ≤ i ≤ N`. -/
theorem ofVector_sum_eq_naive_sum (V : List T) (hV : V.length < 2 ^ 63) :
    ∃ t, BITree.ofVector V = some t ∧ BITree.ofVectorMove V = some (t, []) ∧
      ∀ i, i ≤ V.length → t.sum i = some (naive_sum V i) := by
  obtain ⟨t, h1, h2, h3, -, inv⟩ := ofVector_spec V hV
  refine ⟨t, h1, h2, ?_⟩
  intro i hi
  have := inv.sums i (by simpa [BITree.size, h3] using hi)
  simpa [BITree.get_arr, h3] using this

/-- C1 on the reference sequence: `sum(0..5) = [0, 2.71828, 5.85987, 7.00501, 8.19699, 8.7742]`. -/
theorem ofVector_sum_eq_naive_sum_witness :
    vec1.length < 2 ^ 63 ∧
    ∃ t, BITree.ofVector vec1 = some t ∧ BITree.ofVectorMove vec1 = some (t, []) ∧
      t.sum 0 = some 0 ∧ t.sum 1 = some 2.71828 ∧ t.sum 2 = some 5.85987 ∧
      t.sum 3 = some 7.00501 ∧ t.sum 4 = some 8.19699 ∧ t.sum 5 = some 8.7742 := by
  refine ⟨by decide, ?_⟩
  obtain ⟨t, h1, h2, h3⟩ := ofVector_sum_eq_naive_sum vec1 (by decide)
  refine ⟨t, h1, h2, ?_, ?_, ?_, ?_, ?_, ?_⟩
  · rw [h3 0 (by decide)]; norm_num [naive_sum, vec1]
  · rw [h3 1 (by decide)]; norm_num [naive_sum, vec1]
  · rw [h3 2 (by decide)]; norm_num [naive_sum, vec1]
  · rw [h3 3 (by decide)]; norm_num [naive_sum, vec1]
  · rw [h3 4 (by decide)]; norm_num [naive_sum, vec1]
  · rw [h3 5 (by decide)]; norm_num [naive_sum, vec1]

/-- C2: in every state reachable from a constructor by `add`, `update` and `resize` with
valid indices, `sum(i)` is the naive sum of `get_arr()[0..i)` for every `0 ≤ i ≤ size()`. -/
theorem reachable_sum_eq_naive_sum (t : BITree T) (h : t.Reachable) :
    ∀ i, i ≤ t.size → t.sum i = some (naive_sum t.get_arr i) :=
  h.inv.sums

/-- C2 on the test's `bt1` after construction, `add(2, 1)` and `resize(4)`. -/
theorem reachable_sum_eq_naive_sum_witness :
    bt1_resized.Reachable ∧
      ∀ i, i ≤ bt1_resized.size → bt1_resized.sum i = some (naive_sum bt1_resized.get_arr i) :=
  ⟨bt1_resized_reachable, reachable_sum_eq_naive_sum bt1_resized bt1_resized_reachable⟩

/-- C3: in a state satisfying the invariant, `add(i, d)` with `i < size()` returns, `get(i)`
grows by `d`, `sum(j)` grows by `d` for `i < j ≤ size()` and `sum(j)` is unchanged for `j ≤ i`. -/
theorem add_get_sum (t : BITree T) (inv : t.Inv) (i : Nat) (d : T) (hi : i < t.size) :
    ∃ t' v, t.add i d = some t' ∧ t'.size = t.size ∧
      t.get i = some v ∧ t'.get i = some (v + d) ∧
      (∀ j, i < j → j ≤ t.size → ∃ s, t.sum j = some s ∧ t'.sum j = some (s + d)) ∧
      (∀ j, j ≤ i → t'.sum j = t.sum j) := by
  have hi' : i < t.m_arr.length := hi
  obtain ⟨t', h1, h2, -, inv'⟩ := add_spec t inv i d hi
  have hsz : t'.size = t.size := by simp [BITree.size, h2]
  have hs : ∀ j, j ≤ t.size →
      t'.sum j = some (naive_sum t.m_arr j + if i < j then d else 0) := by
    intro j hj
    rw [inv'.sums j (by rw [hsz]; exact hj), BITree.get_arr, h2, naive_sum_set d _ i j hi']
  refine ⟨t', t.m_arr.getD i 0, h1, hsz, getElem?_eq_some_getD _ _ hi', ?_, ?_, ?_⟩
  · simp [BITree.get, h2, List.getElem?_set, hi']
  · intro j hij hj
    refine ⟨naive_sum t.m_arr j, inv.sums j hj, ?_⟩
    rw [hs j hj, if_pos hij]
  · intro j hj
    have hj' : j ≤ t.size := by omega
    rw [hs j hj', if_neg (by omega), add_zero]
    exact (inv.sums j hj').symm

/-- C3 on the reference tree: `add(2, 1)` gives values
`[2.71828, 3.14159, 2.14514, 1.19198, 0.57721]` and
`sum(0..5) = [0, 2.71828, 5.85987, 8.00501, 9.19699, 9.7742]`. -/
theorem add_get_sum_witness :
    bt1.Inv ∧ 2 < bt1.size ∧
    ∃ t', bt1.add 2 1 = some t' ∧
      t'.get_arr = [2.71828, 3.14159, 2.14514, 1.19198, 0.57721] ∧
      bt1.get 2 = some 1.14514 ∧ t'.get 2 = some 2.14514 ∧
      t'.sum 0 = some 0 ∧ t'.sum 1 = some 2.71828 ∧ t'.sum 2 = some 5.85987 ∧
      t'.sum 3 = some 8.00501 ∧ t'.sum 4 = some 9.19699 ∧ t'.sum 5 = some 9.7742 := by
  have inv := bt1_reachable.inv
  refine ⟨inv, by decide, ?_⟩
  obtain ⟨t', v, h1, -, h3, h4, h5, h6⟩ := add_get_sum bt1 inv 2 1 (by decide)
  have hv : v = 1.14514 := by
    have : bt1.get 2 = some 1.14514 := by simp [BITree.get, bt1, vec1]
    rw [this] at h3; exact (Option.some.inj h3).symm
  subst hv
  have e : t' = bt1_added := by rw [bt1_add] at h1; exact (Option.some.inj h1).symm
  have s : ∀ j, j ≤ bt1.size → bt1.sum j = some (naive_sum vec1 j) := inv.sums
  have up : ∀ j q, 2 < j → j ≤ bt1.size → naive_sum vec1 j + 1 = q → t'.sum j = some q := by
    intro j q h2 hj hq
    obtain ⟨s', a, b⟩ := h5 j h2 hj
    rw [s j hj] at a
    rw [b, ← Option.some.inj a, hq]
  refine ⟨t', h1, by rw [e]; rfl, h3, by rw [h4]; norm_num, ?_, ?_, ?_, ?_, ?_, ?_⟩
  · rw [h6 0 (by decide), s 0 (by decide)]; norm_num [naive_sum, vec1]
  · rw [h6 1 (by decide), s 1 (by decide)]; norm_num [naive_sum, vec1]
  · rw [h6 2 (by decide), s 2 (by decide)]; norm_num [naive_sum, vec1]
  · exact up 3 _ (by decide) (by decide) (by norm_num [naive_sum, vec1])
  · exact up 4 _ (by decide) (by decide) (by norm_num [naive_sum, vec1])
  · exact up 5 _ (by decide) (by decide) (by norm_num [naive_sum, vec1])

/-- C4: for every tree (its vectors within what a vector can hold) and every `i < size()`,
`update(i, x)` is `add(i, x - get(i))`, it returns, and afterwards `get(i)` is exactly `x`,
whatever the value at `i` was; the value type is any additive commutative group, which
covers integers modulo `2 ^ w`. -/
theorem update_get (t : BITree T) (hA : t.m_arr.length < 2 ^ 63)
    (hT : t.m_tree.length ≤ 2 ^ 63) (i : Nat) (x : T) (hi : i < t.size) :
    (∃ v, t.get i = some v ∧ t.update i x = t.add i (x - v)) ∧
    ∃ t', t.update i x = some t' ∧ t'.get i = some x := by
  have hi' : i < t.m_arr.length := hi
  have hg : t.get i = some (t.m_arr.getD i 0) := getElem?_eq_some_getD _ _ hi'
  have hu : t.update i x = t.add i (x - t.m_arr.getD i 0) := by
    simp only [BITree.update, hg, Option.some_bind]
  refine ⟨⟨_, hg, hu⟩, ?_⟩
  have hm : (i + 1) % 2 ^ 64 = i + 1 := Nat.mod_eq_of_lt (by omega)
  obtain ⟨tree', h1, -, -⟩ := add_impl_loop_spec (x - t.m_arr.getD i 0) (t.m_tree.length + 1)
    t.m_tree (i + 1) (by omega) hT (by omega)
  refine ⟨{ m_tree := tree', m_arr := t.m_arr.set i (t.m_arr[i] + (x - t.m_arr.getD i 0)) },
    ?_, ?_⟩
  · rw [hu, BITree.add, dif_pos hi']
    simp only [BITree.add_impl, hm, h1, Option.map_some']
  · have e : t.m_arr[i] + (x - t.m_arr.getD i 0) = x := by
      have e' : t.m_arr[i] = t.m_arr.getD i 0 := by
        simp [List.getD_eq_getElem?_getD, List.getElem?_eq_getElem hi']
      rw [e']; abel
    rw [e]
    simp [BITree.get, List.getElem?_set, hi']

/-- C4 on 32-bit unsigned values: overwriting `4000000000` by `5` goes through the wrapped
difference `5 - 4000000000` and still stores exactly `5`. -/
theorem update_get_witness :
    bt_u32.m_arr.length < 2 ^ 63 ∧ bt_u32.m_tree.length ≤ 2 ^ 63 ∧ 0 < bt_u32.size ∧
    (∃ v, bt_u32.get 0 = some v ∧ bt_u32.update 0 5 = bt_u32.add 0 (5 - v)) ∧
    ∃ t', bt_u32.update 0 5 = some t' ∧ t'.get 0 = some 5 :=
  ⟨by decide, by decide, by decide, update_get bt_u32 (by decide) (by decide) 0 5 (by decide)⟩

/-- C5: in a state satisfying the invariant, for `left ≤ right ≤ size()` the two-argument
`sum(left, right)` is the sum of the elements at positions `[left, right)`; `sum(k, k) = 0`
and `sum(0, k) = sum(k)`. -/
theorem sum2_eq_interval_sum (t : BITree T) (inv : t.Inv) (left right : Nat)
    (hlr : left ≤ right) (hr : right ≤ t.size) :
    t.sum2 left right = some (((t.get_arr.drop left).take (right - left)).sum) ∧
    t.sum2 right right = some 0 ∧ t.sum2 0 right = t.sum right := by
  have sr := inv.sums right hr
  have sl := inv.sums left (by omega)
  have s0 := inv.sums 0 (by omega)
  refine ⟨?_, ?_, ?_⟩
  · simp only [BITree.sum2, sr, sl, Option.some_bind, Option.map_some',
      naive_sum_sub _ _ _ hlr]
  · simp only [BITree.sum2, sr, Option.some_bind, Option.map_some', sub_self]
  · simp only [BITree.sum2, sr, s0, Option.some_bind, Option.map_some', naive_sum_zero,
      sub_zero]

/-- C5 on the reference tree: `sum(1, 4) = 3.14159 + 1.14514 + 1.19198`. -/
theorem sum2_eq_interval_sum_witness :
    bt1.Inv ∧ 1 ≤ 4 ∧ 4 ≤ bt1.size ∧ bt1.sum2 1 4 = some 5.47871 := by
  have inv := bt1_reachable.inv
  refine ⟨inv, by decide, by decide, ?_⟩
  rw [(sum2_eq_interval_sum bt1 inv 1 4 (by decide) (by decide)).1]
  norm_num [BITree.get_arr, bt1, vec1]

/-- C6: in a state satisfying the invariant, for `left` and `right` in `[0, size()]` in either
order both `sum(left, right)` and `sum(right, left)` return, each is the negation of the
other, and for `left > right` the result is minus the sum of the elements at `[right, left)`. -/
theorem sum2_antisymm (t : BITree T) (inv : t.Inv) (left right : Nat)
    (hl : left ≤ t.size) (hr : right ≤ t.size) :
    ∃ a b, t.sum2 left right = some a ∧ t.sum2 right left = some b ∧ a = -b ∧
      (right < left → a = -(((t.get_arr.drop right).take (left - right)).sum)) := by
  have sr := inv.sums right hr
  have sl := inv.sums left hl
  refine ⟨naive_sum t.get_arr right - naive_sum t.get_arr left,
    naive_sum t.get_arr left - naive_sum t.get_arr right, ?_, ?_, by abel, ?_⟩
  · simp only [BITree.sum2, sr, sl, Option.some_bind, Option.map_some']
  · simp only [BITree.sum2, sr, sl, Option.some_bind, Option.map_some']
  · intro h
    rw [← naive_sum_sub _ _ _ (Nat.le_of_lt h)]
    abel

/-- C6 on the reference tree: `sum(4, 1) = -5.47871 = -sum(1, 4)`. -/
theorem sum2_antisymm_witness :
    bt1.Inv ∧ 4 ≤ bt1.size ∧ 1 ≤ bt1.size ∧
      bt1.sum2 4 1 = some (-5.47871) ∧ bt1.sum2 1 4 = some 5.47871 := by
  have inv := bt1_reachable.inv
  obtain ⟨a, b, h1, h2, h3, h4⟩ := sum2_antisymm bt1 inv 4 1 (by decide) (by decide)
  have ha : a = -5.47871 := by
    rw [h4 (by decide)]; norm_num [BITree.get_arr, bt1, vec1]
  have hb : b = 5.47871 := by
    rw [ha] at h3
    have : b = -(-5.47871) := by rw [h3]; simp
    rw [this]; norm_num
  refine ⟨inv, by decide, by decide, ?_, ?_⟩
  · rw [h1, ha]
  · rw [h2, hb]

/-- C7: in a state satisfying the invariant, `resize(k)` with `k < size()` returns a tree of
size `k` whose values are the first `k` old values and whose `sum(i)` is the old `sum(i)` for
every `i ≤ k`. -/
theorem resize_shrink (t : BITree T) (inv : t.Inv) (k : Nat) (hk : k < t.size) :
    ∃ t', t.resize k = some t' ∧ t'.size = k ∧ t'.get_arr = t.get_arr.take k ∧
      ∀ i, i ≤ k → t'.sum i = t.sum i := by
  have hN := inv.bound
  have hk' : k < t.m_arr.length := hk
  obtain ⟨t', h1, h2, -, inv'⟩ := resize_spec t k (by omega) (by omega)
  have e : t'.m_arr = t.m_arr.take k := by
    rw [h2, (by omega : k - t.m_arr.length = 0)]; simp
  have hsz : t'.size = k := by
    simp only [BITree.size, e, List.length_take]; omega
  refine ⟨t', h1, hsz, e, ?_⟩
  intro i hi
  rw [inv'.sums i (by omega), inv.sums i (by omega), BITree.get_arr, e,
    naive_sum_take _ _ _ hi]
  rfl

/-- C7 on the test's tree: `[2.71828, 3.14159, 2.14514, 1.19198, 0.57721]` resized to 4 gives
values `[2.71828, 3.14159, 2.14514, 1.19198]` and
`sum(0..4) = [0, 2.71828, 5.85987, 8.00501, 9.19699]`. -/
theorem resize_shrink_witness :
    bt1_added.Inv ∧ 4 < bt1_added.size ∧
    ∃ t', bt1_added.resize 4 = some t' ∧ t'.size = 4 ∧
      t'.get_arr = [2.71828, 3.14159, 2.14514, 1.19198] ∧
      t'.sum 0 = some 0 ∧ t'.sum 1 = some 2.71828 ∧ t'.sum 2 = some 5.85987 ∧
      t'.sum 3 = some 8.00501 ∧ t'.sum 4 = some 9.19699 := by
  have inv := bt1_added_reachable.inv
  refine ⟨inv, by decide, ?_⟩
  obtain ⟨t', h1, h2, h3, h4⟩ := resize_shrink bt1_added inv 4 (by decide)
  have s : ∀ j, j ≤ bt1_added.size → bt1_added.sum j = some (naive_sum bt1_added.get_arr j) :=
    inv.sums
  refine ⟨t', h1, h2, by rw [h3]; rfl, ?_, ?_, ?_, ?_, ?_⟩
  · rw [h4 0 (by decide), s 0 (by decide)]; norm_num [naive_sum, BITree.get_arr, bt1_added]
  · rw [h4 1 (by decide), s 1 (by decide)]; norm_num [naive_sum, BITree.get_arr, bt1_added]
  · rw [h4 2 (by decide), s 2 (by decide)]; norm_num [naive_sum, BITree.get_arr, bt1_added]
  · rw [h4 3 (by decide), s 3 (by decide)]; norm_num [naive_sum, BITree.get_arr, bt1_added]
  · rw [h4 4 (by decide), s 4 (by decide)]; norm_num [naive_sum, BITree.get_arr, bt1_added]

/-- C8: in a state satisfying the invariant (the empty tree included), `resize(m)` with
`m > size()` (and `m` a size a vector can have) returns a tree of size `m`; `get(i)` is
unchanged for `i < N`, `get(i) = 0` for `N ≤ i < m`, `sum(i)` is unchanged for `i ≤ N`, and
`sum(j)` is the old total `sum(N)` for `N < j ≤ m`, where `N` is the old size. -/
theorem resize_grow (t : BITree T) (inv : t.Inv) (m : Nat) (hm : t.size < m)
    (hmax : m < 2 ^ 63) :
    ∃ t', t.resize m = some t' ∧ t'.size = m ∧
      (∀ i, i < t.size → t'.get i = t.get i) ∧
      (∀ i, t.size ≤ i → i < m → t'.get i = some 0) ∧
      (∀ i, i ≤ t.size → t'.sum i = t.sum i) ∧
      (∀ j, t.size < j → j ≤ m → t'.sum j = t.sum t.size) := by
  have hm' : t.m_arr.length < m := hm
  obtain ⟨t', h1, h2, -, inv'⟩ := resize_spec t m hmax (by omega)
  have e : t'.m_arr = t.m_arr ++ List.replicate (m - t.m_arr.length) 0 := by
    rw [h2, List.take_of_length_le (by omega)]
  have hsz : t'.size = m := by
    simp only [BITree.size, e, List.length_append, List.length_replicate]; omega
  have hs : ∀ j, j ≤ m → t'.sum j = some (naive_sum t.m_arr j) := by
    intro j hj
    rw [inv'.sums j (by omega), BITree.get_arr, e, naive_sum_append_zeros]
  refine ⟨t', h1, hsz, ?_, ?_, ?_, ?_⟩
  · intro i hi
    have hi' : i < t.m_arr.length := hi
    simp only [BITree.get, e, List.getElem?_append_left hi']
  · intro i hi him
    have hi' : t.m_arr.length ≤ i := hi
    simp only [BITree.get, e, List.getElem?_append_right hi', List.getElem?_replicate]
    rw [if_pos (by omega)]
  · intro i hi
    rw [hs i (by omega), inv.sums i hi]; rfl
  · intro j hj hjm
    rw [hs j hjm, inv.sums _ (Nat.le_refl _), naive_sum_of_length_le _ _ (by
      simp only [BITree.size] at hj; omega)]
    rfl

/-- C8 on the test's `bt3` (the 5-element reference tree): resized to 6 it has
`sum(5) = sum(6) = 8.7742` and a sixth value `0`. -/
theorem resize_grow_witness :
    bt3.Inv ∧ bt3.size < 6 ∧ 6 < 2 ^ 63 ∧
    ∃ t', bt3.resize 6 = some t' ∧ t'.size = 6 ∧ t'.get 5 = some 0 ∧
      t'.sum 5 = some 8.7742 ∧ t'.sum 6 = some 8.7742 := by
  have inv : bt3.Inv :=
    (BITree.Reachable.move_target _ (BITree.Reachable.by_copy _ bt1_reachable)).inv
  refine ⟨inv, by decide, by decide, ?_⟩
  obtain ⟨t', h1, h2, -, h4, h5, h6⟩ := resize_grow bt3 inv 6 (by decide) (by decide)
  have s5 : bt3.sum 5 = some 8.7742 := by
    rw [inv.sums 5 (by decide)]
    norm_num [naive_sum, BITree.get_arr, bt3, BITree.move, BITree.copy, bt1, vec1]
  refine ⟨t', h1, h2, h4 5 (by decide) (by decide), ?_, ?_⟩
  · rw [h5 5 (by decide), s5]
  · rw [h6 6 (by decide) (by decide)]; exact s5

/-- C9: move construction maps a source `A` to the pair (new tree, residual source): the
residual has size 0, prints as `[]` and is the default-constructed tree, while the new tree
has the size, every `get(i)` and every `sum(i)` that `A` had. -/
theorem move_spec (render : T → String) (A : BITree T) :
    A.move.2.size = 0 ∧ A.move.2.print render = "[]" ∧ A.move.2 = BITree.default ∧
    A.move.1.size = A.size ∧
    (∀ i, i < A.size → A.move.1.get i = A.get i) ∧
    (∀ i, i ≤ A.size → A.move.1.sum i = A.sum i) :=
  ⟨rfl, rfl, rfl, rfl, fun _ _ => rfl, fun _ _ => rfl⟩

end Claims

section SearchClaims

variable {T : Type} [LinearOrderedAddCommGroup T]

/-- C10: on a tree of size `N` satisfying the invariant whose elements are all non-negative,
the lower-bound binary search over `[begin(), end())` with target `x` returns a cursor into
the same tree whose index `r` is the least `i` in `[0, N)` with `sum(i) ≥ x`, or `N` (the
index of `end()`) when there is none: every `i < r` has `sum(i) < x`, and `sum(r) ≥ x`
when `r < N`. -/
theorem lower_bound_least_index (t : BITree T) (inv : t.Inv)
    (hnn : ∀ v, v ∈ t.get_arr → 0 ≤ v) (x : T) :
    ∃ it, lower_bound t.begin t.end_ x = some it ∧ it.m_bt = t ∧ it.m_idx ≤ t.size ∧
      (∀ i, i < it.m_idx → ∃ s, t.sum i = some s ∧ s < x) ∧
      (it.m_idx < t.size → ∃ s, t.sum it.m_idx = some s ∧ x ≤ s) ∧
      (it.m_idx = t.size → it = t.end_) := by
  have hN := inv.bound
  have hd : t.end_.diff t.begin = t.size := by
    simp only [sum_iterator.diff, BITree.end_, BITree.begin, Nat.sub_zero]
    rw [Nat.add_mod_right, Nat.mod_eq_of_lt (by omega)]
  obtain ⟨r, h1, h2, h3, h4⟩ := lower_bound_loop_spec t inv hnn x (t.size + 1) 0 t.size
    (by omega) (by omega) (by intro i hi; omega) (by intro i hi hlt; omega)
  refine ⟨{ m_bt := t, m_idx := r }, ?_, rfl, h2, ?_, ?_, ?_⟩
  · rw [lower_bound, hd]; exact h1
  · intro i hi
    exact ⟨_, inv.sums i (by simp only at hi; omega), h3 i hi⟩
  · intro hlt
    exact ⟨_, inv.sums r h2, h4 hlt⟩
  · intro h
    simp only at h
    simp only [BITree.end_, h]

end SearchClaims

section SearchWitness

theorem bt1_resized_sums : bt1_resized.sum 0 = some 0 ∧ bt1_resized.sum 1 = some 2.71828 ∧
    bt1_resized.sum 2 = some 5.85987 ∧ bt1_resized.sum 3 = some 8.00501 ∧
    bt1_resized.sum 4 = some 9.19699 := by
  have s := bt1_resized_reachable.inv.sums
  refine ⟨?_, ?_, ?_, ?_, ?_⟩
  · rw [s 0 (by decide)]; norm_num [naive_sum, BITree.get_arr, bt1_resized]
  · rw [s 1 (by decide)]; norm_num [naive_sum, BITree.get_arr, bt1_resized]
  · rw [s 2 (by decide)]; norm_num [naive_sum, BITree.get_arr, bt1_resized]
  · rw [s 3 (by decide)]; norm_num [naive_sum, BITree.get_arr, bt1_resized]
  · rw [s 4 (by decide)]; norm_num [naive_sum, BITree.get_arr, bt1_resized]

/-- C10 on the test's tree with values `[2.71828, 3.14159, 2.14514, 1.19198]`: target `5`
returns the cursor at index 2, which dereferences to `5.85987` and whose successor
dereferences to `8.00501`; target `5.85988` returns the cursor at index 3, which
dereferences to `8.00501`. -/
theorem lower_bound_least_index_witness :
    bt1_resized.Inv ∧ (∀ v, v ∈ bt1_resized.get_arr → (0 : ℚ) ≤ v) ∧
    (∃ it, lower_bound bt1_resized.begin bt1_resized.end_ 5 = some it ∧ it.m_idx = 2 ∧
      it.deref = some 5.85987 ∧ it.incr.deref = some 8.00501) ∧
    (∃ it, lower_bound bt1_resized.begin bt1_resized.end_ 5.85988 = some it ∧ it.m_idx = 3 ∧
      it.deref = some 8.00501) := by
  have inv : bt1_resized.Inv := bt1_resized_reachable.inv
  have hnn : ∀ v, v ∈ bt1_resized.get_arr → (0 : ℚ) ≤ v := by
    intro v hv
    simp only [BITree.get_arr, bt1_resized, List.mem_cons, List.mem_singleton,
      List.not_mem_nil, or_false] at hv
    rcases hv with h | h | h | h <;> rw [h] <;> norm_num
  obtain ⟨s0, s1, s2, s3, s4⟩ := bt1_resized_sums
  refine ⟨inv, hnn, ?_, ?_⟩
  · obtain ⟨⟨bt, r⟩, h1, hbt, hle, hlo, hhi, -⟩ := lower_bound_least_index bt1_resized inv hnn 5
    simp only at hbt hle hlo hhi
    subst hbt
    have hr : r = 2 := by
      have hle' : r ≤ 4 := hle
      interval_cases r
      · obtain ⟨s, a, b⟩ := hhi (by decide)
        rw [s0] at a; rw [← Option.some.inj a] at b; norm_num at b
      · obtain ⟨s, a, b⟩ := hhi (by decide)
        rw [s1] at a; rw [← Option.some.inj a] at b; norm_num at b
      · rfl
      · obtain ⟨s, a, b⟩ := hlo 2 (by decide)
        rw [s2] at a; rw [← Option.some.inj a] at b; norm_num at b
      · obtain ⟨s, a, b⟩ := hlo 2 (by decide)
        rw [s2] at a; rw [← Option.some.inj a] at b; norm_num at b
    subst hr
    exact ⟨_, h1, rfl, s2, s3⟩
  · obtain ⟨⟨bt, r⟩, h1, hbt, hle, hlo, hhi, -⟩ :=
      lower_bound_least_index bt1_resized inv hnn 5.85988
    simp only at hbt hle hlo hhi
    subst hbt
    have hr : r = 3 := by
      have hle' : r ≤ 4 := hle
      interval_cases r
      · obtain ⟨s, a, b⟩ := hhi (by decide)
        rw [s0] at a; rw [← Option.some.inj a] at b; norm_num at b
      · obtain ⟨s, a, b⟩ := hhi (by decide)
        rw [s1] at a; rw [← Option.some.inj a] at b; norm_num at b
      · obtain ⟨s, a, b⟩ := hhi (by decide)
        rw [s2] at a; rw [← Option.some.inj a] at b; norm_num at b
      · rfl
      · obtain ⟨s, a, b⟩ := hlo 3 (by decide)
        rw [s3] at a; rw [← Option.some.inj a] at b; norm_num at b
    subst hr
    exact ⟨_, h1, rfl, s3⟩

end SearchWitness

section SearchScenario

theorem bt1_added_sums : bt1_added.sum 0 = some 0 ∧ bt1_added.sum 1 = some 2.71828 ∧
    bt1_added.sum 2 = some 5.85987 ∧ bt1_added.sum 3 = some 8.00501 ∧
    bt1_added.sum 4 = some 9.19699 ∧ bt1_added.sum 5 = some 9.7742 := by
  have s := bt1_added_reachable.inv.sums
  refine ⟨?_, ?_, ?_, ?_, ?_, ?_⟩
  · rw [s 0 (by decide)]; norm_num [naive_sum, BITree.get_arr, bt1_added]
  · rw [s 1 (by decide)]; norm_num [naive_sum, BITree.get_arr, bt1_added]
  · rw [s 2 (by decide)]; norm_num [naive_sum, BITree.get_arr, bt1_added]
  · rw [s 3 (by decide)]; norm_num [naive_sum, BITree.get_arr, bt1_added]
  · rw [s 4 (by decide)]; norm_num [naive_sum, BITree.get_arr, bt1_added]
  · rw [s 5 (by decide)]; norm_num [naive_sum, BITree.get_arr, bt1_added]

/-- The modelled `std::lower_bound` for `5` on the post-update tree, traced step by step:
distance 5, probe at index 2 (`5.85987`, not less), distance 2, probe at index 1 (`2.71828`,
less), distance 0; it returns the cursor at index 2. -/
theorem bt1_added_search :
    lower_bound bt1_added.begin bt1_added.end_ 5
      = some { m_bt := bt1_added, m_idx := 2 } := by
  obtain ⟨s0, s1, s2, s3, s4, s5⟩ := bt1_added_sums
  have hd : bt1_added.end_.diff bt1_added.begin = 5 := by decide
  have hsz : bt1_added.size = 5 := by decide
  rw [lower_bound, hd]
  have p2 : ({ m_bt := bt1_added, m_idx := 0 } : sum_iterator ℚ).add_assign (5 / 2)
      = { m_bt := bt1_added, m_idx := 2 } := by
    simp [sum_iterator.add_assign]
  have p1 : ({ m_bt := bt1_added, m_idx := 0 } : sum_iterator ℚ).add_assign (2 / 2)
      = { m_bt := bt1_added, m_idx := 1 } := by
    simp [sum_iterator.add_assign]
  have i1 : ({ m_bt := bt1_added, m_idx := 1 } : sum_iterator ℚ).incr
      = { m_bt := bt1_added, m_idx := 2 } := by
    simp [sum_iterator.incr]
  have d2 : ({ m_bt := bt1_added, m_idx := 2 } : sum_iterator ℚ).deref = some 5.85987 := s2
  have d1 : ({ m_bt := bt1_added, m_idx := 1 } : sum_iterator ℚ).deref = some 2.71828 := s1
  have c2 : ¬ ((5.85987 : ℚ) < 5) := by norm_num
  have c1 : (2.71828 : ℚ) < 5 := by norm_num
  show lower_bound_loop 6 { m_bt := bt1_added, m_idx := 0 } 5 5 = _
  rw [lower_bound_loop, if_pos (by decide), p2, d2]
  simp only
  rw [if_neg c2, (by decide : 5 / 2 = 2), lower_bound_loop, if_pos (by decide), p1, d1]
  simp only
  rw [if_pos c1, i1, (by decide : 2 - 2 / 2 - 1 = 0), lower_bound_loop, if_neg (by decide)]

end SearchScenario

section SearchScenarioClaims

/-- C11 (as amended): on the tree built from the reference sequence after `add(2, 1)`, the
first position of the cursor range `[begin(), end())` whose dereferenced value is not less
than `5` is index 2, with value `5.85987`: the cursors at indices 0 and 1 dereference to less
than `5`, the cursor at index 2 lies before `end()` and does not. Index 3, with value
`8.00501`, is the successor of that position. -/
theorem first_position_reaching_five :
    (∀ k, k < 2 → ∃ s, (bt1_added.begin.plus k).deref = some s ∧ s < 5) ∧
    (bt1_added.begin.plus 2).m_idx = 2 ∧
    (bt1_added.begin.plus 2).lt bt1_added.end_ = true ∧
    (∃ s, (bt1_added.begin.plus 2).deref = some s ∧ ¬ s < 5 ∧ s = 5.85987) ∧
    (bt1_added.begin.plus 2).incr.m_idx = 3 ∧
    (bt1_added.begin.plus 2).incr.deref = some 8.00501 := by
  obtain ⟨s0, s1, s2, s3, s4, s5⟩ := bt1_added_sums
  refine ⟨?_, rfl, by decide, ⟨5.85987, s2, by norm_num, rfl⟩, rfl, s3⟩
  intro k hk
  interval_cases k
  · exact ⟨0, s0, by norm_num⟩
  · exact ⟨2.71828, s1, by norm_num⟩

/-- C11 as stated fails: index 3 (value `8.00501`) is not the first position whose value is
not less than `5`, because not every earlier cursor dereferences to less than `5`: the cursor
at index 2 dereferences to `5.85987`. -/
theorem index_three_is_not_first :
    (bt1_added.begin.plus 3).deref = some 8.00501 ∧
    (¬ ∀ k, k < 3 → ∃ s, (bt1_added.begin.plus k).deref = some s ∧ s < 5) ∧
    ∃ s, (bt1_added.begin.plus 2).deref = some s ∧ ¬ s < 5 := by
  obtain ⟨s0, s1, s2, s3, s4, s5⟩ := bt1_added_sums
  refine ⟨s3, ?_, 5.85987, s2, by norm_num⟩
  intro hall
  obtain ⟨s, a, b⟩ := hall 2 (by decide)
  have a' : bt1_added.sum 2 = some s := a
  rw [s2] at a'
  rw [← Option.some.inj a'] at b
  norm_num at b

end SearchScenarioClaims

/-! ## Cursor walks -/

section WalkProofs

variable {T : Type} [AddCommGroup T]

theorem range_for_loop_spec (t : BITree T) (inv : t.Inv) :
    ∀ (fuel k : Nat) (out : List T), k ≤ t.size → t.size - k < fuel →
      range_for_loop fuel { m_bt := t, m_idx := k } t.end_ out
        = some (out ++ (List.range' k (t.size - k)).map (naive_sum t.get_arr)) := by
  have hN := inv.bound
  intro fuel
  induction fuel with
  | zero => intro k out _ h; omega
  | succ fuel ih =>
    intro k out hk hf
    by_cases hne : k = t.size
    · subst hne
      simp [range_for_loop, sum_iterator.ne, sum_iterator.eq, BITree.end_]
    · have hc : ({ m_bt := t, m_idx := k } : sum_iterator T).ne t.end_ = true := by
        simp [sum_iterator.ne, sum_iterator.eq, BITree.end_, hne]
      have hv : ({ m_bt := t, m_idx := k } : sum_iterator T).deref
          = some (naive_sum t.get_arr k) := inv.sums k hk
      have hi : ({ m_bt := t, m_idx := k } : sum_iterator T).incr
          = { m_bt := t, m_idx := k + 1 } := by
        simp only [sum_iterator.incr, Nat.mod_eq_of_lt (by omega : k + 1 < 2 ^ 64)]
      rw [range_for_loop, if_pos hc, hv]
      simp only
      rw [hi, ih (k + 1) _ (by omega) (by omega)]
      have e : t.size - k = (t.size - (k + 1)) + 1 := by omega
      rw [e, List.range'_succ]
      simp

theorem walk_le_loop_spec (t : BITree T) (inv : t.Inv) :
    ∀ (fuel k : Nat) (out : List T), k ≤ t.size + 1 → t.size + 1 - k < fuel →
      walk_le_loop fuel t { m_bt := t, m_idx := k } out
        = some (out ++ (List.range' k (t.size + 1 - k)).map (naive_sum t.get_arr)) := by
  have hN := inv.bound
  intro fuel
  induction fuel with
  | zero => intro k out _ h; omega
  | succ fuel ih =>
    intro k out hk hf
    by_cases hle : k ≤ t.size
    · have hc : ({ m_bt := t, m_idx := k } : sum_iterator T).le t.end_ = true := by
        simp [sum_iterator.le, BITree.end_, hle]
      have hv : ({ m_bt := t, m_idx := k } : sum_iterator T).deref
          = some (naive_sum t.get_arr k) := inv.sums k hle
      have hi : ({ m_bt := t, m_idx := k } : sum_iterator T).incr
          = { m_bt := t, m_idx := k + 1 } := by
        simp only [sum_iterator.incr, Nat.mod_eq_of_lt (by omega : k + 1 < 2 ^ 64)]
      rw [walk_le_loop, if_pos hc, hv]
      simp only
      rw [hi, ih (k + 1) _ (by omega) (by omega)]
      have e : t.size + 1 - k = (t.size + 1 - (k + 1)) + 1 := by omega
      rw [e, List.range'_succ]
      simp
    · have hc : ¬ ({ m_bt := t, m_idx := k } : sum_iterator T).le t.end_ = true := by
        simp [sum_iterator.le, BITree.end_, hle]
      have e : t.size + 1 - k = 0 := by omega
      rw [walk_le_loop, if_neg hc, e]
      simp

theorem map_sum_range (t : BITree T) (inv : t.Inv) (n : Nat) (hn : n ≤ t.size + 1) :
    ((List.range n).map (naive_sum t.get_arr)).map some = (List.range n).map t.sum := by
  rw [List.map_map]
  apply List.map_congr_left
  intro k hk
  have hk' : k < n := List.mem_range.mp hk
  exact (inv.sums k (by omega)).symm

end WalkProofs

section WalkClaims

variable {T : Type} [AddCommGroup T]

/-- C12: `begin()` is the cursor at index 0 and `end()` the cursor at index `N`, both into the
tree itself; a cursor at index `k` dereferences to `sum(k)`. In a state satisfying the
invariant the loop `it != end()` reads exactly the `N` values `sum(0), ..., sum(N-1)` in order,
and the loop `it <= end()` reads the `N + 1` values `sum(0), ..., sum(N)`. -/
theorem cursor_walks (t : BITree T) (inv : t.Inv) :
    t.begin = { m_bt := t, m_idx := 0 } ∧ t.end_ = { m_bt := t, m_idx := t.size } ∧
    (∀ k, ({ m_bt := t, m_idx := k } : sum_iterator T).deref = t.sum k) ∧
    (∃ out, t.range_for = some out ∧ out.length = t.size ∧
      out.map some = (List.range t.size).map t.sum) ∧
    (∃ out, t.walk_le = some out ∧ out.length = t.size + 1 ∧
      out.map some = (List.range (t.size + 1)).map t.sum) := by
  have hN := inv.bound
  refine ⟨rfl, rfl, fun _ => rfl, ?_, ?_⟩
  · refine ⟨(List.range t.size).map (naive_sum t.get_arr), ?_, by simp,
      map_sum_range t inv _ (by omega)⟩
    have hd : t.end_.diff t.begin = t.size := by
      simp only [sum_iterator.diff, BITree.end_, BITree.begin, Nat.sub_zero]
      rw [Nat.add_mod_right, Nat.mod_eq_of_lt (by omega)]
    rw [BITree.range_for, hd]
    have := range_for_loop_spec t inv (t.size + 1) 0 [] (by omega) (by omega)
    simpa [BITree.begin, List.range_eq_range'] using this
  · refine ⟨(List.range (t.size + 1)).map (naive_sum t.get_arr), ?_, by simp,
      map_sum_range t inv _ (by omega)⟩
    rw [BITree.walk_le]
    have := walk_le_loop_spec t inv (t.size + 2) 0 [] (by omega) (by omega)
    simpa [BITree.begin, List.range_eq_range'] using this

/-- C12 on the test's tree of size 4: the range-based loop reads
`0, 2.71828, 5.85987, 8.00501`; the `<=` loop reads these and then `9.19699`. -/
theorem cursor_walks_witness :
    bt1_resized.Inv ∧
    bt1_resized.range_for = some [0, 2.71828, 5.85987, 8.00501] ∧
    bt1_resized.walk_le = some [0, 2.71828, 5.85987, 8.00501, 9.19699] := by
  have inv : bt1_resized.Inv := bt1_resized_reachable.inv
  obtain ⟨s0, s1, s2, s3, s4⟩ := bt1_resized_sums
  obtain ⟨-, -, -, ⟨o1, a1, -, c1⟩, ⟨o2, a2, -, c2⟩⟩ := cursor_walks bt1_resized inv
  have inj : Function.Injective (List.map (some : ℚ → Option ℚ)) :=
    List.map_injective_iff.mpr (Option.some_injective _)
  refine ⟨inv, ?_, ?_⟩
  · rw [a1]; congr 1; apply inj
    rw [c1]
    show [bt1_resized.sum 0, bt1_resized.sum 1, bt1_resized.sum 2, bt1_resized.sum 3] = _
    rw [s0, s1, s2, s3]; rfl
  · rw [a2]; congr 1; apply inj
    rw [c2]
    show [bt1_resized.sum 0, bt1_resized.sum 1, bt1_resized.sum 2, bt1_resized.sum 3,
      bt1_resized.sum 4] = _
    rw [s0, s1, s2, s3, s4]; rfl

end WalkClaims

/-! ## Printed form -/

section PrintProofs

variable {T : Type}

theorem print_loop_spec (render : T → String) (len : Nat) :
    ∀ (l : List T) (k : Nat), k + l.length = len →
      print_loop render ((len : Int) - 1) l k = comma_separated (l.map render) := by
  intro l
  induction l with
  | nil => intro k _; rfl
  | cons x rest ih =>
    intro k hk
    cases rest with
    | nil =>
      have hc : ¬ ((k : Int) ≠ (len : Int) - 1) := by
        simp only [List.length_cons, List.length_nil] at hk; omega
      simp only [print_loop, if_neg hc, List.map_cons, List.map_nil, comma_separated,
        String.append_empty]
    | cons y rest =>
      have hc : (k : Int) ≠ (len : Int) - 1 := by
        simp only [List.length_cons] at hk; omega
      have := ih (k + 1) (by simp only [List.length_cons] at hk ⊢; omega)
      rw [print_loop, if_pos hc, this]
      simp only [List.map_cons, comma_separated]

theorem comma_separated_length : ∀ (l : List String),
    (comma_separated l).length = (l.map String.length).sum + (l.length - 1) := by
  intro l
  induction l with
  | nil => rfl
  | cons x rest ih =>
    cases rest with
    | nil => simp [comma_separated]
    | cons y rest =>
      simp only [comma_separated, String.length_append, ih, List.map_cons, List.sum_cons,
        List.length_cons]
      have : ("," : String).length = 1 := rfl
      omega

end PrintProofs

section PrintClaims

variable {T : Type}

/-- C13: `print` writes `[`, then the renderings of `v0, ..., v(N-1)` in index order with
one comma between neighbours and none after the last, then `]`; the text is `N - 1`
characters (the commas) longer than the brackets and the renderings together; for an empty
tree, such as the default-constructed and the moved-from one, it writes exactly `[]`. -/
theorem print_format (render : T → String) (t : BITree T) :
    t.print render = "[" ++ comma_separated (t.get_arr.map render) ++ "]" ∧
    (t.print render).length
      = 2 + ((t.get_arr.map render).map String.length).sum + (t.size - 1) ∧
    (t.size = 0 → t.print render = "[]") ∧
    (BITree.default : BITree T).print render = "[]" ∧
    t.move.2.print render = "[]" := by
  have h := print_loop_spec render t.m_arr.length t.m_arr 0 (by omega)
  have e : t.print render = "[" ++ comma_separated (t.get_arr.map render) ++ "]" := by
    rw [BITree.print, h]; rfl
  refine ⟨e, ?_, ?_, rfl, rfl⟩
  · rw [e]
    simp only [String.length_append, comma_separated_length, List.length_map, BITree.size,
      BITree.get_arr]
    have h1 : ("[" : String).length = 1 := rfl
    have h2 : ("]" : String).length = 1 := rfl
    omega
  · intro h0
    have hnil : t.get_arr = [] := List.length_eq_zero.mp h0
    rw [e, hnil]; rfl

end PrintClaims

section LowbitProofs

variable {T : Type} [AddCommGroup T]

theorem lsb_pow (w : Nat) : ∀ x, 0 < x → x < 2 ^ w →
    ∃ k, lsb w x = 2 ^ k ∧ 2 ^ k ∣ x ∧ ¬ 2 ^ (k + 1) ∣ x := by
  induction w with
  | zero => intro x h0 hx; simp at hx; omega
  | succ w ih =>
    intro x h0 hx
    have hp : 2 ^ (w + 1) = 2 * 2 ^ w := by rw [pow_succ]; ring
    rcases Nat.mod_two_eq_zero_or_one x with h | h
    · obtain ⟨k, h1, h2, h3⟩ := ih (x / 2) (by omega) (by omega)
      refine ⟨k + 1, ?_, ?_, ?_⟩
      · simp only [lsb, h]; simp [h1, pow_succ]; ring
      · have hx2 : x = 2 * (x / 2) := by omega
        have e2 : 2 ^ (k + 1) = 2 * 2 ^ k := by rw [pow_succ]; ring
        rw [hx2, e2]
        exact Nat.mul_dvd_mul_left 2 h2
      · intro hd
        apply h3
        have hx2 : x = 2 * (x / 2) := by omega
        have e2 : 2 ^ (k + 1 + 1) = 2 * 2 ^ (k + 1) := by rw [pow_succ]; ring
        rw [hx2, e2] at hd
        exact (Nat.mul_dvd_mul_iff_left (by decide : 0 < 2)).mp hd
    · refine ⟨0, by simp [lsb, h], by simp, ?_⟩
      rintro ⟨c, hc⟩
      omega

end LowbitProofs

section PrintScenario

/-- C13 on a tree of three integers rendered in decimal: the text is `[3,1,4]`; the
default-constructed tree prints `[]`. -/
theorem print_format_witness :
    ({ m_tree := [0, 3, 4, 4], m_arr := [3, 1, 4] } : BITree ℤ).print (fun v => toString v)
      = "[3,1,4]" ∧
    (BITree.default : BITree ℤ).print (fun v => toString v) = "[]" :=
  ⟨(print_format (fun v : ℤ => toString v) { m_tree := [0, 3, 4, 4], m_arr := [3, 1, 4] }).1.trans
    (by decide), by decide⟩

end PrintScenario

section OrderClaims

variable {T : Type} [LinearOrderedAddCommGroup T]

/-- C14: in a state satisfying the invariant whose elements are all non-negative, for
`i ≤ j ≤ size()` both `sum(i)` and `sum(j)` return and `sum(i) ≤ sum(j)`; these are the values
the cursors at `i` and `j` dereference to, so the cursor range is non-decreasing. -/
theorem sum_monotone (t : BITree T) (inv : t.Inv) (hnn : ∀ v, v ∈ t.get_arr → 0 ≤ v)
    (i j : Nat) (hij : i ≤ j) (hj : j ≤ t.size) :
    ∃ a b, t.sum i = some a ∧ t.sum j = some b ∧ a ≤ b ∧
      (t.begin.plus i).deref = some a ∧ (t.begin.plus j).deref = some b := by
  have hN := inv.bound
  have hi : i ≤ t.size := by omega
  have pi : t.begin.plus i = { m_bt := t, m_idx := i } := by
    simp only [sum_iterator.plus, BITree.begin, Nat.zero_add,
      Nat.mod_eq_of_lt (by omega : i < 2 ^ 64)]
  have pj : t.begin.plus j = { m_bt := t, m_idx := j } := by
    simp only [sum_iterator.plus, BITree.begin, Nat.zero_add,
      Nat.mod_eq_of_lt (by omega : j < 2 ^ 64)]
  refine ⟨_, _, inv.sums i hi, inv.sums j hj, naive_sum_mono _ hnn i j hij, ?_, ?_⟩
  · rw [pi]; exact inv.sums i hi
  · rw [pj]; exact inv.sums j hj

/-- C14 on the test's tree of size 4: `sum(1) = 2.71828 ≤ 8.00501 = sum(3)`. -/
theorem sum_monotone_witness :
    bt1_resized.Inv ∧ (∀ v, v ∈ bt1_resized.get_arr → (0 : ℚ) ≤ v) ∧ 1 ≤ 3 ∧
    3 ≤ bt1_resized.size ∧
    ∃ a b, bt1_resized.sum 1 = some a ∧ bt1_resized.sum 3 = some b ∧ a ≤ b ∧
      a = 2.71828 ∧ b = 8.00501 := by
  have inv : bt1_resized.Inv := bt1_resized_reachable.inv
  have hnn : ∀ v, v ∈ bt1_resized.get_arr → (0 : ℚ) ≤ v := by
    intro v hv
    simp only [BITree.get_arr, bt1_resized, List.mem_cons, List.mem_singleton,
      List.not_mem_nil, or_false] at hv
    rcases hv with h | h | h | h <;> rw [h] <;> norm_num
  obtain ⟨s0, s1, s2, s3, s4⟩ := bt1_resized_sums
  obtain ⟨a, b, ha, hb, hab, -, -⟩ :=
    sum_monotone bt1_resized inv hnn 1 3 (by decide) (by decide)
  refine ⟨inv, hnn, by decide, by decide, a, b, ha, hb, hab, ?_, ?_⟩
  · rw [s1] at ha; exact (Option.some.inj ha).symm
  · rw [s3] at hb; exact (Option.some.inj hb).symm

end OrderClaims

section NodeInvariantClaims

variable {T : Type} [AddCommGroup T]

/-- C15: in every reachable state (the states built by a sequence constructor and changed by
`add`, `update` and `resize` among them), for every `1 ≤ i ≤ size()` the slot `m_tree[i]`
exists and holds the sum of the `lowbit(i)` raw values at positions `i - lowbit(i), ..., i - 1`,
where `lowbit(i) = i & (-i)` is the largest power of two dividing `i`. -/
theorem node_slot_sum (t : BITree T) (h : t.Reachable) (i : Nat) (h1 : 1 ≤ i)
    (hi : i ≤ t.size) :
    t.m_tree[i]? = some (((t.get_arr.drop (i - lowbit i)).take (lowbit i)).sum) ∧
    0 < lowbit i ∧ lowbit i ≤ i ∧
    ∃ k, lowbit i = 2 ^ k ∧ 2 ^ k ∣ i ∧ ¬ 2 ^ (k + 1) ∣ i := by
  have inv := h.inv
  have hN := inv.bound
  have hi' : i ≤ t.m_arr.length := hi
  have hs : t.m_tree.length = t.m_arr.length + 1 := by
    rcases inv.shape with hs | ⟨-, hs⟩
    · exact hs
    · rw [hs] at hi'; simp at hi'; omega
  have node := BITree.Inv.to_node t inv hs
  have h64 : i < 2 ^ 64 := by simp only [BITree.size] at hN; omega
  have hl := lsb_pos 64 i (by omega) h64
  have e := lowbit_eq_lsb i h64
  have hv := node.2 i (by omega) hi'
  have hlt : i < t.m_tree.length := by omega
  refine ⟨?_, by rw [e]; exact hl.1, by rw [e]; exact hl.2, ?_⟩
  · rw [getElem?_eq_some_getD _ _ hlt, hv, naive_sum_sub _ _ _ (Nat.sub_le _ _)]
    have : i - (i - lowbit i) = lowbit i := by rw [e]; omega
    rw [this]; rfl
  · rw [e]; exact lsb_pow 64 i (by omega) h64

/-- C15 on the test's tree after `add(2, 1)`: slot 4 holds the sum `9.19699` of the first
four values, slot 3 the single value `2.14514`. -/
theorem node_slot_sum_witness :
    bt1_added.Reachable ∧ 1 ≤ 4 ∧ 4 ≤ bt1_added.size ∧
    bt1_added.m_tree[4]? = some (((bt1_added.get_arr.drop (4 - lowbit 4)).take (lowbit 4)).sum) ∧
    lowbit 4 = 4 ∧ bt1_added.m_tree[4]? = some (9.19699 : ℚ) :=
  ⟨bt1_added_reachable, by decide, by decide,
    (node_slot_sum bt1_added bt1_added_reachable 4 (by decide) (by decide)).1, by decide, rfl⟩

end NodeInvariantClaims

/-! ## Slots touched by a point update -/

section CoverageProofs

variable {T : Type} [AddCommGroup T]

theorem add_impl_positions_head (fuel size p : Nat) :
    add_impl_positions fuel size p = [] ∨ (add_impl_positions fuel size p).head? = some p := by
  cases fuel with
  | zero => left; rfl
  | succ fuel =>
    by_cases h : p < size
    · right; simp [add_impl_positions, h]
    · left; simp [add_impl_positions, h]

/-- The positions visited from `p` are the `j ≥ p` below `size` whose interval
`(j - lsb j, j]` holds `p`; they are visited in increasing order, each one `lowbit` after the
one before. -/
theorem add_impl_positions_spec : ∀ (fuel size p : Nat),
    0 < p → size ≤ 2 ^ 63 → size - p < fuel →
    (∀ j, j ∈ add_impl_positions fuel size p ↔ (p ≤ j ∧ j < size ∧ j - lsb 64 j < p)) ∧
    (add_impl_positions fuel size p).Pairwise (fun a b => a < b) ∧
    (add_impl_positions fuel size p).Chain' (fun a b => b = a + lowbit a) := by
  intro fuel
  induction fuel with
  | zero => intro size p h0 hs hf; omega
  | succ fuel ih =>
    intro size p h0 hs hf
    by_cases hp : p < size
    · obtain ⟨e, hpos, hle, hstep⟩ := lowbit_facts p h0 (by omega)
      obtain ⟨m, pw, ch⟩ := ih size (p + lsb 64 p) (by omega) hs (by omega)
      have unfold : add_impl_positions (fuel + 1) size p
          = p :: add_impl_positions fuel size (p + lsb 64 p) := by
        rw [add_impl_positions, if_pos hp, hstep]
      rw [unfold]
      refine ⟨?_, ?_, ?_⟩
      · intro j
        rw [List.mem_cons, m j]
        by_cases hjp : j = p
        · subst hjp
          constructor
          · intro _; exact ⟨Nat.le_refl _, hp, by omega⟩
          · intro _; exact Or.inl rfl
        · by_cases hlt : j < p
          · constructor
            · rintro (h | h)
              · exact absurd h hjp
              · omega
            · intro h; omega
          · by_cases hj64 : j < 2 ^ 64
            · have hc := cover_step 64 p j h0 (by omega) hj64
              constructor
              · rintro (h | ⟨a, b, c⟩)
                · exact absurd h hjp
                · exact ⟨by omega, b, hc.2 ⟨a, c⟩⟩
              · rintro ⟨a, b, c⟩
                exact Or.inr ⟨(hc.1 c).1, b, (hc.1 c).2⟩
            · constructor
              · rintro (h | h)
                · exact absurd h hjp
                · omega
              · intro h; omega
      · rw [List.pairwise_cons]
        refine ⟨?_, pw⟩
        intro j hj
        have := (m j).1 hj
        omega
      · rcases add_impl_positions_head fuel size (p + lsb 64 p) with h | h
        · rw [h]; exact List.chain'_singleton _
        · rw [List.chain'_cons']
          refine ⟨?_, ch⟩
          intro y hy
          rw [h] at hy
          rw [← Option.some.inj hy, e]
    · have unfold : add_impl_positions (fuel + 1) size p = [] := by
        rw [add_impl_positions, if_neg hp]
      rw [unfold]
      refine ⟨?_, List.Pairwise.nil, List.chain'_nil⟩
      intro j
      constructor
      · intro h; simp at h
      · intro h; omega

theorem add_impl_loop_fold (val : T) : ∀ (fuel : Nat) (tree tree' : List T) (p : Nat),
    add_impl_loop fuel tree p val = some tree' →
    tree' = (add_impl_positions fuel tree.length p).foldl
      (fun tr j => tr.set j (tr.getD j 0 + val)) tree := by
  intro fuel
  induction fuel with
  | zero => intro tree tree' p h; simp [add_impl_loop] at h
  | succ fuel ih =>
    intro tree tree' p h
    by_cases hp : p < tree.length
    · rw [add_impl_loop, dif_pos hp] at h
      have := ih _ _ _ h
      rw [List.length_set] at this
      have e : tree[p] = tree.getD p 0 := by
        simp [List.getD_eq_getElem?_getD, List.getElem?_eq_getElem hp]
      rw [add_impl_positions, if_pos hp, List.foldl_cons, ← e]
      exact this
    · rw [add_impl_loop, dif_neg hp] at h
      rw [add_impl_positions, if_neg hp]
      exact (Option.some.inj h).symm

end CoverageProofs

section CoverageClaims

variable {T : Type} [AddCommGroup T]

/-- C16: on a tree of size `N` (tree array of `N + 1` slots), `add(index, d)` with
`index < N` returns, and the positions its loop visits, the chain `index + 1`,
`pos += lowbit(pos)` while `pos ≤ N`, are exactly the slots `j` with `1 ≤ j ≤ N` whose
interval `(j - lowbit(j), j]` contains `index + 1`; the chain is strictly increasing, so each
such slot grows by `d` exactly once, and slot 0 and every other slot keep their value. -/
theorem add_touches_covering_slots (t : BITree T) (hs : t.m_tree.length = t.size + 1)
    (hN : t.size < 2 ^ 63) (index : Nat) (d : T) (hi : index < t.size) :
    ∃ t' chain, t.add index d = some t' ∧
      chain = add_impl_positions (t.m_tree.length + 1) t.m_tree.length ((index + 1) % 2 ^ 64) ∧
      t'.m_tree = chain.foldl (fun tr j => tr.set j (tr.getD j 0 + d)) t.m_tree ∧
      chain.head? = some (index + 1) ∧
      chain.Chain' (fun a b => b = a + lowbit a) ∧
      chain.Pairwise (fun a b => a < b) ∧
      (∀ j, j ∈ chain ↔ (1 ≤ j ∧ j ≤ t.size ∧ j - lowbit j < index + 1 ∧ index + 1 ≤ j)) ∧
      t'.m_tree.length = t.m_tree.length ∧
      (∀ j, j ≤ t.size →
        t'.m_tree.getD j 0 = t.m_tree.getD j 0 + if j ∈ chain then d else 0) ∧
      t'.m_tree.getD 0 0 = t.m_tree.getD 0 0 := by
  have hi' : index < t.m_arr.length := hi
  have hN' : t.m_arr.length < 2 ^ 63 := hN
  have hs' : t.m_tree.length = t.m_arr.length + 1 := hs
  have hm : (index + 1) % 2 ^ 64 = index + 1 := Nat.mod_eq_of_lt (by omega)
  obtain ⟨tree', h1, h2, h3⟩ := add_impl_loop_spec d (t.m_tree.length + 1) t.m_tree (index + 1)
    (by omega) (by omega) (by omega)
  obtain ⟨m, pw, ch⟩ := add_impl_positions_spec (t.m_tree.length + 1) t.m_tree.length
    (index + 1) (by omega) (by omega) (by omega)
  have hmem : ∀ j, j ∈ add_impl_positions (t.m_tree.length + 1) t.m_tree.length (index + 1) ↔
      (1 ≤ j ∧ j ≤ t.size ∧ j - lowbit j < index + 1 ∧ index + 1 ≤ j) := by
    intro j
    rw [m j]
    simp only [BITree.size]
    constructor
    · rintro ⟨a, b, c⟩
      rw [lowbit_eq_lsb j (by omega)]
      exact ⟨by omega, by omega, c, a⟩
    · rintro ⟨a, b, c, e⟩
      rw [lowbit_eq_lsb j (by omega)] at c
      exact ⟨e, by omega, c⟩
  have hslot : ∀ j, j ≤ t.size → tree'.getD j 0 = t.m_tree.getD j 0 +
      if j ∈ add_impl_positions (t.m_tree.length + 1) t.m_tree.length (index + 1)
        then d else 0 := by
    intro j hj
    have hj' : j ≤ t.m_arr.length := hj
    rw [h3 j (by omega)]
    congr 1
    by_cases c : index + 1 ≤ j ∧ j - lsb 64 j < index + 1
    · rw [if_pos c, if_pos ((m j).2 ⟨c.1, by omega, c.2⟩)]
    · rw [if_neg c, if_neg (fun h => c ⟨((m j).1 h).1, ((m j).1 h).2.2⟩)]
  refine ⟨{ m_tree := tree', m_arr := t.m_arr.set index (t.m_arr[index] + d) },
    add_impl_positions (t.m_tree.length + 1) t.m_tree.length (index + 1), ?_, by rw [hm],
    add_impl_loop_fold d _ _ _ _ h1, ?_, ch, pw, hmem, h2, hslot, ?_⟩
  · rw [BITree.add, dif_pos hi']
    simp only [BITree.add_impl, hm, h1, Option.map_some']
  · simp [add_impl_positions, (by omega : index + 1 < t.m_tree.length)]
  · rw [hslot 0 (by omega), if_neg (fun h => by have := (hmem 0).1 h; omega), add_zero]

/-- C16 on the reference tree: `add(2, 1)` visits the slots `3` and `4` (and stops below
`6 = m_tree.size()`), the two slots whose intervals `(2, 3]` and `(0, 4]` contain position 3. -/
theorem add_touches_covering_slots_witness :
    bt1.m_tree.length = bt1.size + 1 ∧ bt1.size < 2 ^ 63 ∧ 2 < bt1.size ∧
    ∃ t', bt1.add 2 1 = some t' ∧
      add_impl_positions (bt1.m_tree.length + 1) bt1.m_tree.length ((2 + 1) % 2 ^ 64) = [3, 4] ∧
      t'.m_tree = [0, 2.71828, 5.85987, 2.14514, 9.19699, 0.57721] := by
  obtain ⟨t', chain, h1, h2, -⟩ :=
    add_touches_covering_slots bt1 (by decide) (by decide) 2 1 (by decide)
  refine ⟨by decide, by decide, by decide, t', h1, by decide, ?_⟩
  rw [bt1_add] at h1
  rw [← Option.some.inj h1]; rfl

end CoverageClaims

/-! ## Shape of the tree array -/

section ShapeClaims

variable {T : Type} [AddCommGroup T]

/-- C17 (as amended): in every reachable state the tree array has `size() + 1` slots or both
arrays are empty; the second case is the default-constructed tree and the moved-from source
(tree array of length 0 with `size() = 0`), so a tree with at least one value always has
`size() + 1` slots. The sequence constructors and every size-changing `resize` produce
`size() + 1` slots; `add`, copy and the target of a move keep the length. -/
theorem tree_array_length (t : BITree T) (h : t.Reachable) :
    (t.m_tree.length = t.size + 1 ∨ (t.m_tree.length = 0 ∧ t.size = 0)) ∧
    (0 < t.size → t.m_tree.length = t.size + 1) ∧
    (BITree.default : BITree T).m_tree.length = 0 ∧
    t.move.2.m_tree.length = 0 ∧
    t.move.1.m_tree.length = t.m_tree.length ∧
    t.copy.m_tree.length = t.m_tree.length ∧
    (∀ V : List T, V.length < 2 ^ 63 →
      ∃ t', BITree.ofVector V = some t' ∧ t'.size = V.length ∧
        t'.m_tree.length = V.length + 1) ∧
    (∀ siz, siz < 2 ^ 63 → siz ≠ t.size →
      ∃ t', t.resize siz = some t' ∧ t'.size = siz ∧ t'.m_tree.length = siz + 1) ∧
    (∀ index val, index < t.size →
      ∃ t', t.add index val = some t' ∧ t'.size = t.size ∧
        t'.m_tree.length = t.m_tree.length) := by
  have inv := h.inv
  have shape : t.m_tree.length = t.size + 1 ∨ (t.m_tree.length = 0 ∧ t.size = 0) := by
    rcases inv.shape with hs | ⟨h1, h2⟩
    · exact Or.inl hs
    · right; simp [BITree.size, h1, h2]
  refine ⟨shape, ?_, rfl, rfl, rfl, rfl, ?_, ?_, ?_⟩
  · intro hpos
    rcases shape with hs | ⟨-, h2⟩
    · exact hs
    · omega
  · intro V hV
    obtain ⟨t', h1, -, h3, h4, -⟩ := ofVector_spec V hV
    exact ⟨t', h1, by simp [BITree.size, h3], h4⟩
  · intro siz hsiz hne
    obtain ⟨t', h1, h2, h3, -⟩ := resize_spec t siz hsiz hne
    refine ⟨t', h1, ?_, h3⟩
    simp only [BITree.size, h2, List.length_append, List.length_take, List.length_replicate]
    omega
  · intro index val hi
    obtain ⟨t', h1, h2, h3, -⟩ := add_spec t inv index val hi
    have hsz : t'.size = t.size := by simp [BITree.size, h2]
    refine ⟨t', h1, hsz, ?_⟩
    rcases shape with hs | ⟨-, h0⟩
    · have : t'.m_tree.length = t'.size + 1 := h3
      omega
    · omega

/-- C17 on the default-constructed tree (empty tree array) and on the test's `bt1`
(six slots for five values). -/
theorem tree_array_length_witness :
    (BITree.default : BITree ℤ).Reachable ∧
    (BITree.default : BITree ℤ).m_tree.length = 0 ∧ (BITree.default : BITree ℤ).size = 0 ∧
    bt1.Reachable ∧ bt1.m_tree.length = bt1.size + 1 :=
  ⟨BITree.Reachable.by_default, rfl, rfl, bt1_reachable,
    (tree_array_length bt1 bt1_reachable).2.1 (by decide)⟩

/-- C17 as stated fails: the default-constructed tree and the source of a move are reachable,
have size 0 and a tree array of length 0, not 1. -/
theorem default_tree_array_is_empty :
    (¬ ∀ t : BITree ℤ, t.Reachable → t.m_tree.length = t.size + 1) ∧
    (BITree.default : BITree ℤ).Reachable ∧
    (BITree.default : BITree ℤ).m_tree.length = 0 ∧
    (BITree.default : BITree ℤ).size + 1 = 1 ∧
    (BITree.move bt1).2.Reachable ∧ (BITree.move bt1).2.m_tree.length = 0 ∧
    (BITree.move bt1).2.size + 1 = 1 := by
  refine ⟨?_, BITree.Reachable.by_default, rfl, rfl,
    BITree.Reachable.move_source _ bt1_reachable, rfl, rfl⟩
  intro hall
  have := hall BITree.default BITree.Reachable.by_default
  exact absurd this (by decide)

end ShapeClaims

/-! ## Cursor arithmetic -/

section CursorClaims

variable {T : Type}

/-- C18: for cursors `a` and `b` at indices `ia`, `ib` (64-bit words, either order) `a - b` is
`ia - ib` modulo `2 ^ 64`, which is the plain difference when `ib ≤ ia`; `b + (a - b)` is at
index `ia` and compares equal to `a`; each of `==`, `!=`, `<`, `<=`, `>`, `>=` is the same
comparison of the two indices, whatever trees the cursors point into. -/
theorem cursor_difference (a b : sum_iterator T) (ha : a.m_idx < 2 ^ 64)
    (hb : b.m_idx < 2 ^ 64) :
    (a.diff b : Int) = ((a.m_idx : Int) - (b.m_idx : Int)) % 2 ^ 64 ∧
    (b.m_idx ≤ a.m_idx → a.diff b = a.m_idx - b.m_idx) ∧
    (a.m_idx < b.m_idx → a.diff b = 2 ^ 64 - (b.m_idx - a.m_idx)) ∧
    (b.plus (a.diff b)).m_idx = a.m_idx ∧ (b.plus (a.diff b)).eq a = true ∧
    (b.plus (a.diff b)).m_bt = b.m_bt ∧
    a.eq b = decide (a.m_idx = b.m_idx) ∧ a.ne b = decide (a.m_idx ≠ b.m_idx) ∧
    a.lt b = decide (a.m_idx < b.m_idx) ∧ a.le b = decide (a.m_idx ≤ b.m_idx) ∧
    a.gt b = decide (a.m_idx > b.m_idx) ∧ a.ge b = decide (a.m_idx ≥ b.m_idx) ∧
    ∀ ta tb : BITree T,
      ({ m_bt := ta, m_idx := a.m_idx } : sum_iterator T).eq { m_bt := tb, m_idx := b.m_idx }
        = a.eq b ∧
      ({ m_bt := ta, m_idx := a.m_idx } : sum_iterator T).ne { m_bt := tb, m_idx := b.m_idx }
        = a.ne b ∧
      ({ m_bt := ta, m_idx := a.m_idx } : sum_iterator T).lt { m_bt := tb, m_idx := b.m_idx }
        = a.lt b ∧
      ({ m_bt := ta, m_idx := a.m_idx } : sum_iterator T).le { m_bt := tb, m_idx := b.m_idx }
        = a.le b ∧
      ({ m_bt := ta, m_idx := a.m_idx } : sum_iterator T).gt { m_bt := tb, m_idx := b.m_idx }
        = a.gt b ∧
      ({ m_bt := ta, m_idx := a.m_idx } : sum_iterator T).ge { m_bt := tb, m_idx := b.m_idx }
        = a.ge b ∧
      ({ m_bt := ta, m_idx := a.m_idx } : sum_iterator T).diff { m_bt := tb, m_idx := b.m_idx }
        = a.diff b := by
  have hidx : (b.plus (a.diff b)).m_idx = a.m_idx := by
    simp only [sum_iterator.plus, sum_iterator.diff]; omega
  refine ⟨?_, ?_, ?_, hidx, ?_, rfl, rfl, ?_, rfl, rfl, rfl, rfl, ?_⟩
  · simp only [sum_iterator.diff]; omega
  · intro h; simp only [sum_iterator.diff]; omega
  · intro h; simp only [sum_iterator.diff]; omega
  · simp only [sum_iterator.eq, hidx, decide_True]
  · simp [sum_iterator.ne, sum_iterator.eq]
  · intro ta tb
    exact ⟨rfl, rfl, rfl, rfl, rfl, rfl, rfl⟩

/-- C18 on cursors into two different trees, `a` at index 1 of `bt1` and `b` at index 4 of
`bt3`: `a - b` wraps to `2 ^ 64 - 3`, `b - a` is `3`, `b + (a - b) == a`, and `a < b`. -/
theorem cursor_difference_witness :
    (1 : Nat) < 2 ^ 64 ∧ (4 : Nat) < 2 ^ 64 ∧
    ({ m_bt := bt1, m_idx := 1 } : sum_iterator ℚ).diff { m_bt := bt3, m_idx := 4 }
      = 2 ^ 64 - 3 ∧
    (({ m_bt := bt3, m_idx := 4 } : sum_iterator ℚ).plus
      (({ m_bt := bt1, m_idx := 1 } : sum_iterator ℚ).diff { m_bt := bt3, m_idx := 4 })).eq
        { m_bt := bt1, m_idx := 1 } = true ∧
    ({ m_bt := bt1, m_idx := 1 } : sum_iterator ℚ).lt { m_bt := bt3, m_idx := 4 } = true :=
  ⟨by decide, by decide,
    (cursor_difference ({ m_bt := bt1, m_idx := 1 } : sum_iterator ℚ)
      { m_bt := bt3, m_idx := 4 } (by decide) (by decide)).2.2.1 (by decide),
    (cursor_difference ({ m_bt := bt1, m_idx := 1 } : sum_iterator ℚ)
      { m_bt := bt3, m_idx := 4 } (by decide) (by decide)).2.2.2.2.1,
    by decide⟩

end CursorClaims

/-! ## Index safety and termination -/

section SafetyProofs

variable {T : Type} [AddCommGroup T]

theorem add_returns (t : BITree T) (hA : t.m_arr.length < 2 ^ 63)
    (hT : t.m_tree.length ≤ 2 ^ 63) (index : Nat) (val : T) (hi : index < t.size) :
    ∃ t', t.add index val = some t' := by
  have hi' : index < t.m_arr.length := hi
  have hm : (index + 1) % 2 ^ 64 = index + 1 := Nat.mod_eq_of_lt (by omega)
  obtain ⟨tree', h1, -, -⟩ := add_impl_loop_spec val (t.m_tree.length + 1)
    t.m_tree (index + 1) (by omega) hT (by omega)
  refine ⟨{ m_tree := tree', m_arr := t.m_arr.set index (t.m_arr[index] + val) }, ?_⟩
  rw [BITree.add, dif_pos hi']
  simp only [BITree.add_impl, hm, h1, Option.map_some']

theorem update_returns (t : BITree T) (hA : t.m_arr.length < 2 ^ 63)
    (hT : t.m_tree.length ≤ 2 ^ 63) (index : Nat) (val : T) (hi : index < t.size) :
    ∃ t', t.update index val = some t' := by
  have hi' : index < t.m_arr.length := hi
  obtain ⟨t', h⟩ := add_returns t hA hT index (val - t.m_arr.getD index 0) hi
  refine ⟨t', ?_⟩
  simp only [BITree.update, BITree.get, getElem?_eq_some_getD _ _ hi', Option.some_bind, h]

theorem resize_returns (t : BITree T) (siz : Nat) (hsiz : siz < 2 ^ 63) :
    ∃ t', t.resize siz = some t' := by
  by_cases hne : siz = t.size
  · exact ⟨t, by rw [hne, resize_same]⟩
  · obtain ⟨t', h, -⟩ := resize_spec t siz hsiz hne
    exact ⟨t', h⟩

/-- More fuel does not change a result of the `add_impl` loop. -/
theorem add_impl_loop_fuel_mono (val : T) : ∀ (fuel : Nat) (tree r : List T) (p : Nat),
    add_impl_loop fuel tree p val = some r →
    ∀ fuel', fuel ≤ fuel' → add_impl_loop fuel' tree p val = some r := by
  intro fuel
  induction fuel with
  | zero => intro tree r p h; simp [add_impl_loop] at h
  | succ fuel ih =>
    intro tree r p h fuel' hle
    obtain ⟨f, rfl⟩ : ∃ f, fuel' = f + 1 := ⟨fuel' - 1, by omega⟩
    by_cases hp : p < tree.length
    · rw [add_impl_loop, dif_pos hp] at h ⊢
      exact ih _ _ _ h f (by omega)
    · rw [add_impl_loop, dif_neg hp] at h ⊢
      exact h

/-- The query loop never leaves the tree array when it starts inside it, and the fuel does
not matter once it exceeds the start index. -/
theorem sum_loop_returns (tree : List T) : ∀ (index : Nat), index < tree.length →
    ∃ r, ∀ (fuel : Nat) (ans : T), index < fuel → sum_loop fuel tree index ans = some (ans + r) := by
  intro index
  induction index using Nat.strong_induction_on with
  | _ index ih =>
    intro hlt
    rcases Nat.eq_zero_or_pos index with h0 | h0
    · subst h0
      refine ⟨0, ?_⟩
      intro fuel ans hf
      obtain ⟨f, rfl⟩ : ∃ f, fuel = f + 1 := ⟨fuel - 1, by omega⟩
      simp [sum_loop]
    · have hdec : index &&& (index - 1) < index := by
        have hw := Nat.lt_two_pow index
        have hl := lsb_pos index index h0 hw
        rw [land_pred_eq index index h0 hw]; omega
      obtain ⟨r, hr⟩ := ih _ hdec (by omega)
      refine ⟨tree[index] + r, ?_⟩
      intro fuel ans hf
      obtain ⟨f, rfl⟩ : ∃ f, fuel = f + 1 := ⟨fuel - 1, by omega⟩
      rw [sum_loop, if_pos h0, List.getElem?_eq_getElem hlt]
      simp only
      rw [hr f _ (by omega), add_assoc]

/-- With start position 0 the `add_impl` loop stays at position 0: on a nonempty tree array
it returns for no amount of fuel. -/
theorem add_impl_loop_zero_spins (val : T) : ∀ (fuel : Nat) (tree : List T),
    0 < tree.length → add_impl_loop fuel tree 0 val = none := by
  intro fuel
  induction fuel with
  | zero => intro tree _; rfl
  | succ fuel ih =>
    intro tree h
    have hz : (0 + lowbit 0) % 2 ^ 64 = 0 := by decide
    rw [add_impl_loop, dif_pos h, hz]
    exact ih _ (by simpa using h)

end SafetyProofs

section SafetyClaims

variable {T : Type} [AddCommGroup T]

/-- C19: in every reachable state, the default-constructed and moved-from trees included,
`get(i)`, `add(i, d)`, `update(i, x)` with `i < size()`, `sum(i)` with `i ≤ size()`,
`sum(l, r)` with `l, r ≤ size()` and `resize` return a result, and so do the sequence
constructors: no access of `m_arr` or `m_tree` falls outside the vector. -/
theorem index_safety (t : BITree T) (h : t.Reachable) :
    (∀ i, i < t.size → ∃ v, t.get i = some v) ∧
    (∀ i d, i < t.size → ∃ t', t.add i d = some t' ∧ t'.Reachable) ∧
    (∀ i x, i < t.size → ∃ t', t.update i x = some t' ∧ t'.Reachable) ∧
    (∀ i, i ≤ t.size → ∃ s, t.sum i = some s) ∧
    (∀ l r, l ≤ t.size → r ≤ t.size → ∃ s, t.sum2 l r = some s) ∧
    (∀ siz, siz < 2 ^ 63 → ∃ t', t.resize siz = some t' ∧ t'.Reachable) ∧
    (∀ V : List T, V.length < 2 ^ 63 →
      ∃ t', BITree.ofVector V = some t' ∧ BITree.ofVectorMove V = some (t', []) ∧
        t'.Reachable) := by
  have inv := h.inv
  refine ⟨?_, ?_, ?_, ?_, ?_, ?_, ?_⟩
  · intro i hi
    exact ⟨_, getElem?_eq_some_getD t.m_arr i hi⟩
  · intro i d hi
    obtain ⟨t', h1, -⟩ := add_spec t inv i d hi
    exact ⟨t', h1, BITree.Reachable.after_add t t' i d h hi h1⟩
  · intro i x hi
    obtain ⟨t', h1, -⟩ := update_spec t inv i x hi
    exact ⟨t', h1, BITree.Reachable.after_update t t' i x h hi h1⟩
  · intro i hi
    exact ⟨_, inv.sums i hi⟩
  · intro l r hl hr
    refine ⟨naive_sum t.get_arr r - naive_sum t.get_arr l, ?_⟩
    simp only [BITree.sum2, inv.sums r hr, inv.sums l hl, Option.some_bind, Option.map_some']
  · intro siz hsiz
    obtain ⟨t', h1⟩ := resize_returns t siz hsiz
    exact ⟨t', h1, BITree.Reachable.after_resize t t' siz h hsiz h1⟩
  · intro V hV
    obtain ⟨t', h1, h2, -⟩ := ofVector_spec V hV
    exact ⟨t', h1, h2, BITree.Reachable.of_vector V t' hV h1⟩

/-- C19 on the test's tree after `add(2, 1)` (five values, six tree slots), at the last valid
indices: `get(4)`, `add(4, 1)`, `update(4, 7)`, `sum(5)`, `sum(1, 5)`, `sum(5, 1)` and
`resize(6)` all return, with `get(4) = 0.57721`, `sum(5) = 9.7742` and `sum(1, 5) = 7.05592`;
and on the moved-from `bt1` and the default-constructed tree, whose tree arrays are empty:
`sum(0)` and `sum(0, 0)` read no slot and `resize(3)` returns. -/
theorem index_safety_witness :
    bt1_added.Reachable ∧ bt1_added.size = 5 ∧ bt1_added.m_tree.length = 6 ∧
    (∃ v, bt1_added.get 4 = some v ∧ v = 0.57721) ∧
    (∃ t', bt1_added.add 4 1 = some t' ∧ t'.Reachable) ∧
    (∃ t', bt1_added.update 4 7 = some t' ∧ t'.Reachable) ∧
    (∃ s, bt1_added.sum 5 = some s ∧ s = 9.7742) ∧
    (∃ s, bt1_added.sum2 1 5 = some s ∧ s = 7.05592) ∧
    (∃ s, bt1_added.sum2 5 1 = some s ∧ s = -7.05592) ∧
    (∃ t', bt1_added.resize 6 = some t' ∧ t'.Reachable) ∧
    (BITree.move bt1).2.Reachable ∧ (BITree.move bt1).2.m_tree.length = 0 ∧
    (∃ s, (BITree.move bt1).2.sum 0 = some s ∧ s = 0) ∧
    (∃ s, (BITree.move bt1).2.sum2 0 0 = some s ∧ s = 0) ∧
    (∃ t', (BITree.move bt1).2.resize 3 = some t' ∧ t'.Reachable) ∧
    (BITree.default : BITree ℤ).Reachable ∧
    (∃ s, (BITree.default : BITree ℤ).sum 0 = some s ∧ s = 0) ∧
    (∃ t', (BITree.default : BITree ℤ).resize 3 = some t' ∧ t'.Reachable) := by
  obtain ⟨s0, s1, s2, s3, s4, s5⟩ := bt1_added_sums
  obtain ⟨hget, hadd, hupd, hsum, hsum2, hres, -⟩ :=
    index_safety bt1_added bt1_added_reachable
  have hsrc : (BITree.move bt1).2.Reachable := BITree.Reachable.move_source _ bt1_reachable
  obtain ⟨-, -, -, msum, msum2, mres, -⟩ := index_safety (BITree.move bt1).2 hsrc
  obtain ⟨-, -, -, dsum, -, dres, -⟩ :=
    index_safety (BITree.default : BITree ℤ) BITree.Reachable.by_default
  have e15 : bt1_added.sum2 1 5 = some 7.05592 := by
    simp only [BITree.sum2, s5, s1, Option.some_bind, Option.map_some']; norm_num
  have e51 : bt1_added.sum2 5 1 = some (-7.05592) := by
    simp only [BITree.sum2, s5, s1, Option.some_bind, Option.map_some']; norm_num
  have m0 : (BITree.move bt1).2.sum 0 = some 0 := rfl
  have m00 : (BITree.move bt1).2.sum2 0 0 = some 0 := by
    simp only [BITree.sum2, m0, Option.some_bind, Option.map_some', sub_self]
  have d0 : (BITree.default : BITree ℤ).sum 0 = some 0 := rfl
  refine ⟨bt1_added_reachable, rfl, rfl, ?_, hadd 4 1 (by decide), hupd 4 7 (by decide),
    ?_, ?_, ?_, hres 6 (by decide), hsrc, rfl, ?_, ?_, mres 3 (by decide),
    BITree.Reachable.by_default, ?_, dres 3 (by decide)⟩
  · obtain ⟨v, hv⟩ := hget 4 (by decide)
    have h4 : bt1_added.get 4 = some 0.57721 := rfl
    exact ⟨v, hv, by rw [h4] at hv; exact (Option.some.inj hv).symm⟩
  · obtain ⟨s, hs⟩ := hsum 5 (by decide)
    exact ⟨s, hs, by rw [s5] at hs; exact (Option.some.inj hs).symm⟩
  · obtain ⟨s, hs⟩ := hsum2 1 5 (by decide) (by decide)
    exact ⟨s, hs, by rw [e15] at hs; exact (Option.some.inj hs).symm⟩
  · obtain ⟨s, hs⟩ := hsum2 5 1 (by decide) (by decide)
    exact ⟨s, hs, by rw [e51] at hs; exact (Option.some.inj hs).symm⟩
  · obtain ⟨s, hs⟩ := msum 0 (by decide)
    exact ⟨s, hs, by rw [m0] at hs; exact (Option.some.inj hs).symm⟩
  · obtain ⟨s, hs⟩ := msum2 0 0 (by decide) (by decide)
    exact ⟨s, hs, by rw [m00] at hs; exact (Option.some.inj hs).symm⟩
  · obtain ⟨s, hs⟩ := dsum 0 (by decide)
    exact ⟨s, hs, by rw [d0] at hs; exact (Option.some.inj hs).symm⟩

/-- C20 (as amended): on a tree whose vectors have lengths a vector can have, the `add_impl`
loop returns for every start index with `index + 1 < 2 ^ 64` (so for every index within the
documented range), with a result that no longer depends on the fuel; `lowbit` of a position
inside the tree array is positive and the position strictly grows. The `sum` loop returns for
every start index inside the tree array, because the position strictly shrinks. Hence
`add` and `update` with `index < size()`, `sum` with an index inside the tree array (or 0),
`resize` and the sequence constructors (sizes below `2 ^ 63`) all return. -/
theorem loops_terminate (t : BITree T) (hA : t.m_arr.length < 2 ^ 63)
    (hT : t.m_tree.length ≤ 2 ^ 63) :
    (∀ index val, index + 1 < 2 ^ 64 →
      ∃ tree', ∀ fuel, t.m_tree.length < fuel →
        add_impl_loop fuel t.m_tree ((index + 1) % 2 ^ 64) val = some tree') ∧
    (∀ pos, 0 < pos → pos < t.m_tree.length →
      0 < lowbit pos ∧ pos < (pos + lowbit pos) % 2 ^ 64) ∧
    (∀ index, index < t.m_tree.length →
      ∃ r, ∀ (fuel : Nat) (ans : T), index < fuel →
        sum_loop fuel t.m_tree index ans = some (ans + r)) ∧
    (∀ pos, 0 < pos → pos &&& (pos - 1) < pos) ∧
    (∀ index val, index < t.size → ∃ t', t.add index val = some t') ∧
    (∀ index val, index < t.size → ∃ t', t.update index val = some t') ∧
    (∀ index, index < t.m_tree.length ∨ index = 0 → ∃ s, t.sum index = some s) ∧
    (∀ siz, siz < 2 ^ 63 → ∃ t', t.resize siz = some t') ∧
    (∀ V : List T, V.length < 2 ^ 63 → ∃ t', BITree.ofVector V = some t') := by
  refine ⟨?_, ?_, ?_, ?_, ?_, ?_, ?_, ?_, ?_⟩
  · intro index val hidx
    have hm : (index + 1) % 2 ^ 64 = index + 1 := Nat.mod_eq_of_lt hidx
    obtain ⟨tree', h1, -, -⟩ := add_impl_loop_spec val (t.m_tree.length + 1) t.m_tree
      (index + 1) (by omega) hT (by omega)
    refine ⟨tree', ?_⟩
    intro fuel hf
    rw [hm]
    exact add_impl_loop_fuel_mono val _ _ _ _ h1 fuel (by omega)
  · intro pos h0 hlt
    obtain ⟨e, hpos, -, hstep⟩ := lowbit_facts pos h0 (by omega)
    rw [hstep, e]
    exact ⟨hpos, by omega⟩
  · intro index hlt
    exact sum_loop_returns t.m_tree index hlt
  · intro pos h0
    have hw := Nat.lt_two_pow pos
    have hl := lsb_pos pos pos h0 hw
    rw [land_pred_eq pos pos h0 hw]; omega
  · intro index val hi
    exact add_returns t hA hT index val hi
  · intro index val hi
    exact update_returns t hA hT index val hi
  · intro index hi
    rcases hi with hi | hi
    · obtain ⟨r, hr⟩ := sum_loop_returns t.m_tree index hi
      exact ⟨0 + r, hr (index + 1) 0 (by omega)⟩
    · subst hi
      exact ⟨0, by simp [BITree.sum, sum_loop]⟩
  · intro siz hsiz
    exact resize_returns t siz hsiz
  · intro V hV
    obtain ⟨t', h1, -⟩ := ofVector_spec V hV
    exact ⟨t', h1⟩

/-- C20 on the 32-bit tree: `add_impl` from start index 2 returns the same tree array for
every fuel above `m_tree.size() = 4`, and `sum(3)` returns. -/
theorem loops_terminate_witness :
    bt_u32.m_arr.length < 2 ^ 63 ∧ bt_u32.m_tree.length ≤ 2 ^ 63 ∧
    (∃ tree', ∀ fuel, bt_u32.m_tree.length < fuel →
      add_impl_loop fuel bt_u32.m_tree ((2 + 1) % 2 ^ 64) 1 = some tree') ∧
    (∃ s, bt_u32.sum 3 = some s) :=
  ⟨by decide, by decide,
    (loops_terminate bt_u32 (by decide) (by decide)).1 2 1 (by decide),
    (loops_terminate bt_u32 (by decide) (by decide)).2.2.2.2.2.2.1 3 (Or.inl (by decide))⟩

/-- C20 as stated fails for the start index `2 ^ 64 - 1`, a 64-bit word: `++ index` wraps to
position 0, `lowbit(0) = 0`, and on a tree array of length 1 (at most `2 ^ 63`) the `add_impl`
loop returns for no amount of fuel. -/
theorem add_impl_spins_at_max_index :
    (2 ^ 64 - 1 + 1) % 2 ^ 64 = 0 ∧ lowbit 0 = 0 ∧ ([0] : List ℤ).length ≤ 2 ^ 63 ∧
    ¬ ∃ (fuel : Nat) (tree' : List ℤ),
      add_impl_loop fuel [0] ((2 ^ 64 - 1 + 1) % 2 ^ 64) 1 = some tree' := by
  refine ⟨by decide, by decide, by decide, ?_⟩
  rintro ⟨fuel, tree', h⟩
  have hz : (2 ^ 64 - 1 + 1) % 2 ^ 64 = 0 := by decide
  rw [hz, add_impl_loop_zero_spins 1 fuel [0] (by decide)] at h
  exact absurd h (by simp)

end SafetyClaims
